import Mathlib

/-!
Verification of the s2fft core transforms against their natural-language
specification.  Arrays are shallowly embedded as functions out of `ℕ`
(1-D), `ℕ → ℕ` (2-D) or `ℕ → ℕ → ℕ` (3-D) into `ℂ`; only indices inside
the array's shape are meaningful and every theorem restricts itself to
such indices.  Floating point arithmetic is modelled by exact real and
complex arithmetic.  The generic FFT primitives of the array library are
external collaborators with a documented contract (the discrete Fourier
transform with a selectable normalisation); they are defined here by that
contract.
-/

open Complex Finset

noncomputable section

/-- The contract of the array library's FFT collaborator: the primitive
`n`-th root of unity sampler, `npexp n t = exp (2 π i t / n)`. -/
def npexp (n : ℕ) (t : ℤ) : ℂ :=
  Complex.exp (2 * Real.pi * Complex.I * t / n)

/-- `numpy.fft.fft` with `norm="backward"` (no scaling on the forward
transform): `X k = ∑ j, x j · exp (-2 π i j k / n)`. -/
def fftN (n : ℕ) (x : ℕ → ℂ) : ℕ → ℂ :=
  fun k => ∑ j ∈ Finset.range n, x j * npexp n (-((j : ℤ) * k))

/-- `numpy.fft.ifft` with `norm="forward"` (no scaling on the inverse
transform): `x p = ∑ k, X k · exp (2 π i k p / n)`. -/
def ifftForward (n : ℕ) (x : ℕ → ℂ) : ℕ → ℂ :=
  fun p => ∑ k ∈ Finset.range n, x k * npexp n ((k : ℤ) * p)

/-- `numpy.fft.ifft` with `norm="backward"` (scaling `1/n` on the inverse
transform). -/
def ifftBackward (n : ℕ) (x : ℕ → ℂ) : ℕ → ℂ :=
  fun p => (1 / (n : ℂ)) * ∑ k ∈ Finset.range n, x k * npexp n ((k : ℤ) * p)

/-- `numpy.fft.rfft` with `norm="backward"` applied to the real part of the
input (the source always passes `np.real(f)`); only output bins
`0 … n/2` are meaningful. -/
def rfftN (n : ℕ) (x : ℕ → ℂ) : ℕ → ℂ :=
  fun k => ∑ j ∈ Finset.range n, ((x j).re : ℂ) * npexp n (-((j : ℤ) * k))

/-- `numpy.fft.irfft` with `norm="forward"` and output length `n`: the
inverse DFT of the Hermitian extension of the half spectrum `a 0 … a (n/2)`
(the caller supplies the crop-or-zero-pad of its input to that range; the
imaginary parts of the DC and Nyquist bins are discarded, as in FFTW's
c2r transform). -/
def irfftForward (n : ℕ) (a : ℕ → ℂ) : ℕ → ℂ :=
  fun p =>
    (((a 0).re : ℝ) : ℂ)
      + (if n % 2 = 0 then ((-1 : ℂ)) ^ p * (((a (n / 2)).re : ℝ) : ℂ) else 0)
      + ∑ k ∈ Finset.range ((n - 1) / 2),
          2 * (((a (k + 1) * npexp n ((k + 1 : ℕ) * p)).re : ℝ) : ℂ)

/-- `numpy.fft.fftshift` on an axis of length `n`: a cyclic roll by `n / 2`,
moving the zero-frequency bin to the centre. -/
def fftshift (n : ℕ) (x : ℕ → ℂ) : ℕ → ℂ :=
  fun k => x ((k + (n - n / 2)) % n)

/-- `numpy.fft.ifftshift` on an axis of length `n`: the inverse cyclic roll
by `n / 2`. -/
def ifftshift (n : ℕ) (x : ℕ → ℂ) : ℕ → ℂ :=
  fun k => x ((k + n / 2) % n)

/-! ## HealpixFFTLayer: spectral folding and periodic extension

Translated from `src/s2fft/healpix_ffts.py`.  Both functions centre the
native `nphi`-wide spectral window at `slice_start = L - nphi / 2` inside a
`2 L`-wide buffer.  `spectral_folding` is given here in value semantics:
entry `k` of the returned slice is the base entry `slice_start + k` plus the
contributions accumulated by the two aliasing `while` loops (the loops write
via `+=` into a view of the input; the in-place behaviour itself is modelled
separately below for the frame-effect claim).  The first loop runs
`idx = 1 … slice_start`, the second `idx = 0 … 2 L - slice_stop - 1`, exactly
as the loop guards `slice_start - idx >= 0` and `slice_stop + idx < len(fm)`
prescribe for a length-`2 L` input. -/

/-- `spectral_folding(fm, nphi, L)` from `s2fft/healpix_ffts.py` (value
semantics, input of length `2 L`). -/
def spectral_folding (fm : ℕ → ℂ) (nphi L : ℕ) : ℕ → ℂ :=
  fun k =>
    fm (L - nphi / 2 + k)
      + (∑ i ∈ Finset.range (L - nphi / 2),
          if ((-((i : ℤ) + 1)) % (nphi : ℤ)).toNat = k then
            fm (L - nphi / 2 - (i + 1)) else 0)
      + (∑ i ∈ Finset.range (2 * L - (L - nphi / 2 + nphi)),
          if i % nphi = k then fm (L - nphi / 2 + nphi + i) else 0)

/-- `spectral_periodic_extension(fm, nphi, L)` from `s2fft/healpix_ffts.py`:
the `2 L`-long buffer holding `fm` at `[slice_start, slice_stop)` and its
modulo-`nphi` periodic images below and above. -/
def spectral_periodic_extension (fm : ℕ → ℂ) (nphi L : ℕ) : ℕ → ℂ :=
  fun j =>
    if j < L - nphi / 2 then
      fm ((-(((L - nphi / 2 - j : ℕ) : ℤ)) % (nphi : ℤ)).toNat)
    else if j < L - nphi / 2 + nphi then fm (j - (L - nphi / 2))
    else fm ((j - (L - nphi / 2 + nphi)) % nphi)

/-! ## HEALPix map geometry

The ring layout of a HEALPix map (`s2fft.samples.nphi_ring`, `ftm_shape`,
`f_shape` for the `healpix` scheme) is imported by `healpix_ffts.py` from a
module that is not part of this repository snapshot. -/

/-- Modelled from the spec: `s2fft.samples.nphi_ring(t, nside)`, the number of
φ samples on ring `t` of a HEALPix map (spec §3: every scheme supplies a
deterministic `nphi(θ-index)`); the standard HEALPix layout has `4·(t+1)`
pixels on polar-cap rings, `4·nside` on equatorial-band rings, mirrored in the
southern cap, over `4·nside - 1` rings in total. -/
def nphi_ring (t nside : ℕ) : ℕ :=
  if t + 1 < nside then 4 * (t + 1)
  else if t + 1 ≤ 3 * nside then 4 * nside
  else 4 * (4 * nside - 1 - t)

/-- Modelled from the spec: the number of θ rings of a HEALPix map
(`ftm_shape(L, "healpix", nside)` has `4·nside - 1` rows). -/
def hp_ntheta (nside : ℕ) : ℕ := 4 * nside - 1

/-- Offset of ring `t` into the flat HEALPix pixel array: the rings are stored
consecutively, so ring `t` starts at the sum of the lengths of the earlier
rings (this is the running `index` variable of `healpix_fft`/`healpix_ifft`). -/
def hpOffset (nside t : ℕ) : ℕ := ∑ r ∈ Finset.range t, nphi_ring r nside

/-- `healpix_fft(f, L, nside, reality)` from `s2fft/healpix_ffts.py`, row `t`,
column `j`.  Note the faithful quirk of the source: when `reality` holds and
the ring is of full length `2 L`, lines 98–101 fill `fm_chunk` from a real
FFT, but line 102 then unconditionally overwrites `fm_chunk` with the full
complex FFT, so the bound value (`_fm_chunk_dead` here) never reaches the
output. -/
def healpix_fft (f : ℕ → ℂ) (L nside : ℕ) (reality : Bool) : ℕ → ℕ → ℂ :=
  fun t j =>
    let nphi := nphi_ring t nside
    let _fm_chunk_dead : ℕ → ℂ :=
      if reality ∧ nphi = 2 * L then
        fun j' =>
          if nphi / 2 ≤ j' ∧ j' < nphi then
            rfftN nphi (fun p => f (hpOffset nside t + p)) (j' - nphi / 2)
          else 0
      else fun _ => 0
    let fm_chunk : ℕ → ℂ :=
      fftshift nphi (fftN nphi (fun p => f (hpOffset nside t + p)))
    if nphi = 2 * L then fm_chunk j
    else spectral_periodic_extension fm_chunk nphi L j

/-- `healpix_ifft(ftm, L, nside, reality)` from `s2fft/healpix_ffts.py`
(value semantics), at flat pixel index `p`: the rings are written to the
disjoint windows `[offset t, offset t + nphi)` of the output array, so the
value at `p` is the single window term containing `p`. -/
def healpix_ifft (ftm : ℕ → ℕ → ℂ) (L nside : ℕ) (reality : Bool) : ℕ → ℂ :=
  fun p =>
    ∑ t ∈ Finset.range (hp_ntheta nside),
      if hpOffset nside t ≤ p ∧ p < hpOffset nside t + nphi_ring t nside then
        (let nphi := nphi_ring t nside
         let fm_chunk : ℕ → ℂ :=
           if nphi = 2 * L then ftm t else spectral_folding (ftm t) nphi L
         if reality ∧ nphi = 2 * L then
           irfftForward nphi
             (fun k => if k < nphi - nphi / 2 then fm_chunk (nphi / 2 + k) else 0)
             (p - hpOffset nside t)
         else ifftForward nphi (ifftshift nphi fm_chunk) (p - hpOffset nside t))
      else 0

/-! ## In-place behaviour of the HEALPix inverse layer

`spectral_folding` takes a numpy *view* `ftm_slice = fm[slice_start:slice_stop]`
of its argument and accumulates the aliased bins into it with `+=`, so the
caller's array is written through.  The next definitions model that state
effect explicitly: `spectral_folding_base` is the base array after the call,
and `spectral_folding_st` returns the pair (base array after the call,
returned slice) — the returned slice is literally a window into the mutated
base. -/

/-- The base array `fm` (length `2 L`) after `spectral_folding(fm, nphi, L)`
has run: entries inside the window `[slice_start, slice_stop)` have received
the aliased `+=` contributions, entries outside are untouched. -/
def spectral_folding_base (fm : ℕ → ℂ) (nphi L : ℕ) : ℕ → ℂ :=
  fun j =>
    if L - nphi / 2 ≤ j ∧ j < L - nphi / 2 + nphi then
      fm j
        + (∑ i ∈ Finset.range (L - nphi / 2),
            if ((-((i : ℤ) + 1)) % (nphi : ℤ)).toNat = j - (L - nphi / 2) then
              fm (L - nphi / 2 - (i + 1)) else 0)
        + (∑ i ∈ Finset.range (2 * L - (L - nphi / 2 + nphi)),
            if i % nphi = j - (L - nphi / 2) then fm (L - nphi / 2 + nphi + i)
            else 0)
    else fm j

/-- State-passing `spectral_folding`: the pair (base array after the call,
returned value).  The returned value is the view `base (slice_start + ·)`. -/
def spectral_folding_st (fm : ℕ → ℂ) (nphi L : ℕ) : (ℕ → ℂ) × (ℕ → ℂ) :=
  (spectral_folding_base fm nphi L,
    fun k => spectral_folding_base fm nphi L (L - nphi / 2 + k))

/-- State-passing `healpix_ifft`: the pair (the caller's `ftm` array after the
call, the returned pixel array).  Each ring row of length `< 2 L` has been
folded in place by the `spectral_folding` view writes; full-length rows are
untouched. -/
def healpix_ifft_st (ftm : ℕ → ℕ → ℂ) (L nside : ℕ) (reality : Bool) :
    (ℕ → ℕ → ℂ) × (ℕ → ℂ) :=
  (fun t =>
    if t < hp_ntheta nside ∧ nphi_ring t nside ≠ 2 * L then
      spectral_folding_base (ftm t) (nphi_ring t nside) L
    else ftm t,
   healpix_ifft ftm L nside reality)

/-! ## SampleGeometry for the rotation group (`src/s2fft/wigner/samples.py`) -/

/-- `str.lower()` on ASCII sampling-scheme strings. -/
def lowercase (s : String) : String := ⟨s.data.map Char.toLower⟩

/-- `_nalpha(L, sampling)` from `s2fft/wigner/samples.py`; the Python
`ValueError` is an `Except.error`. -/
def nalpha (L : ℕ) (sampling : String) : Except String ℕ :=
  if lowercase sampling = "mw" ∨ lowercase sampling = "dh" then
    Except.ok (2 * L - 1)
  else if lowercase sampling = "mwss" then Except.ok (2 * L)
  else Except.error "Sampling scheme not supported"

/-- `_nbeta(L, sampling)` from `s2fft/wigner/samples.py`. -/
def nbeta (L : ℕ) (sampling : String) : Except String ℕ :=
  if lowercase sampling = "mw" then Except.ok L
  else if lowercase sampling = "mwss" then Except.ok (L + 1)
  else if lowercase sampling = "dh" then Except.ok (2 * L)
  else Except.error "Sampling scheme not supported"

/-- `_ngamma(N)` from `s2fft/wigner/samples.py`. -/
def ngamma (N : ℕ) : ℕ := 2 * N - 1

/-- `f_shape(L, N, sampling)` from `s2fft/wigner/samples.py`: the guarded
tuple `(_nbeta, _nalpha, _ngamma)` for the supported schemes, `ValueError`
otherwise. -/
def f_shape (L N : ℕ) (sampling : String) : Except String (ℕ × ℕ × ℕ) :=
  if sampling = "mw" ∨ sampling = "mwss" ∨ sampling = "dh" then
    match nbeta L sampling, nalpha L sampling with
    | Except.ok b, Except.ok a => Except.ok (b, a, ngamma N)
    | Except.error e, _ => Except.error e
    | Except.ok _, Except.error e => Except.error e
  else Except.error "Sampling scheme not supported"

/-- `flmn_shape_1d(L, N)` from `s2fft/wigner/samples.py`. -/
def flmn_shape_1d (L N : ℕ) : ℕ := (2 * N - 1) * L * L

/-- `elmn2ind(el, m, n, L, N)` from `s2fft/wigner/samples.py`. -/
def elmn2ind (el : ℕ) (m n : ℤ) (L N : ℕ) : ℤ :=
  ((N : ℤ) - 1 + n) * L * L + el * el + el + m

/-- Sequential array writes: fold a list of (index, value) pairs over an
initial array, later writes shadowing earlier ones — the functional image of
a Python loop of plain element assignments. -/
def writeAll {α : Type} [DecidableEq α] (ps : List (α × ℂ)) (f : α → ℂ) :
    α → ℂ :=
  ps.foldl (fun g p => Function.update g p.1 p.2) f

/-- The iteration space of the packing loops of `flmn_3d_to_1d` and
`flmn_1d_to_3d`: `n` from `-N+1` to `N-1` outermost, then `el` from `0` to
`L-1`, then `m` from `-el` to `el`. -/
def wignerIdx (L N : ℕ) : List (ℤ × ℕ × ℤ) :=
  (List.range (2 * N - 1)).flatMap fun (ni : ℕ) =>
    (List.range L).flatMap fun (el : ℕ) =>
      (List.range (2 * el + 1)).map fun (mi : ℕ) =>
        ((ni : ℤ) - ((N : ℤ) - 1), el, (mi : ℤ) - (el : ℤ))

/-- `flmn_3d_to_1d(flmn_3d, L, N)` from `s2fft/wigner/samples.py`: write
`flmn_3d[el, L-1+m, N-1+n]` to flat index `elmn2ind(el, m, n, L, N)` of a
zero-initialised length-`(2N-1)·L·L` array, over the triple loop. -/
def flmn_3d_to_1d (x : ℕ × ℕ × ℕ → ℂ) (L N : ℕ) : ℕ → ℂ :=
  writeAll
    ((wignerIdx L N).map fun q =>
      ((elmn2ind q.2.1 q.2.2 q.1 L N).toNat,
        x (q.2.1, (((L : ℤ) - 1) + q.2.2).toNat, (((N : ℤ) - 1) + q.1).toNat)))
    fun _ => 0

/-- `flmn_1d_to_3d(flmn_1d, L, N)` from `s2fft/wigner/samples.py`: the inverse
packing direction over the same loop. -/
def flmn_1d_to_3d (y : ℕ → ℂ) (L N : ℕ) : ℕ × ℕ × ℕ → ℂ :=
  writeAll
    ((wignerIdx L N).map fun q =>
      ((q.2.1, (((L : ℤ) - 1) + q.2.2).toNat, (((N : ℤ) - 1) + q.1).toNat),
        y (elmn2ind q.2.1 q.2.2 q.1 L N).toNat))
    fun _ => 0

/-! ## WignerTransform (`src/s2fft/wigner/transform.py`) -/

/-- Modelled from the spec: the per-spin spherical-harmonic transform pair
(`s2fft.transform.inverse` and `s2fft.transform.forward`), which the
Wigner-level code calls once per directional order `n` with `spin = -n`;
their implementing module is not part of this repository snapshot.  Spec
§4.5 and §8.1 describe them as mutually inverse linear maps between
band-limited harmonic coefficients `flm` (array indices `(ℓ, L-1+m)`,
support `|m| ≤ ℓ < L`) and complex pixel fields on the sphere (indices
`(θ, φ)`); those two contract properties are taken as hypotheses by the
round-trip theorem below. -/
structure SphericalPair where
  inv : ℤ → (ℕ → ℕ → ℂ) → (ℕ → ℕ → ℂ)
  fwd : ℤ → (ℕ → ℕ → ℂ) → (ℕ → ℕ → ℂ)

/-- A coefficient array `flm` is band-limited: entries outside the triangular
support `|m| ≤ ℓ < L` (array column `j = L-1+m`) vanish. -/
def bandlimited (L : ℕ) (g : ℕ → ℕ → ℂ) : Prop :=
  ∀ el j, el < L → j < 2 * L - 1 → (el : ℤ) < |(j : ℤ) - ((L : ℤ) - 1)| →
    g el j = 0

/-- The coefficient scaling of the Wigner inverse:
`flmn * sqrt((2ℓ+1)/16π³)` (the `einsum` against `np.sqrt((2*arange(L)+1)
/(16*pi**3))`). -/
def wigner_inv_scaled (flmn : ℕ → ℕ → ℕ → ℂ) : ℕ → ℕ → ℕ → ℂ :=
  fun el j k =>
    flmn el j k * ((Real.sqrt ((2 * (el : ℝ) + 1) / (16 * Real.pi ^ 3)) : ℝ) : ℂ)

/-- The γ-slot stack `fban` of the Wigner inverse: slot `k = N-1+n` holds
`(-1)^n` times the spin spherical inverse (at `spin = -n`) of the scaled
coefficients of order `n`. -/
def wigner_inv_fban (T : SphericalPair) (flmn : ℕ → ℕ → ℕ → ℂ) (N : ℕ) :
    ℕ → ℕ → ℕ → ℂ :=
  fun b a k =>
    (-1 : ℂ) ^ ((k : ℤ) - ((N : ℤ) - 1)) *
      T.inv (-((k : ℤ) - ((N : ℤ) - 1)))
        (fun el j => wigner_inv_scaled flmn el j k) b a

/-- The pixel-space computation of `inverse(flmn, L, N, …, sampling,
reality, nside)` from `s2fft/wigner/transform.py` *below* its fatal shape
call (the entry point itself never reaches this code — see
`wigner_inverse` further down): scale by `sqrt((2ℓ+1)/16π³)`, apply the
spin spherical inverse with `spin = -n` and sign `(-1)^n` for each order
`n` (γ slot `k = N-1+n`), then inverse-FFT (real inverse FFT on the
slots `k ≥ N-1` under `reality`) along the last (γ) axis with forward
normalisation.  Axes of the result are `(β, α, γ)`. -/
def wigner_inverse_core (T : SphericalPair) (flmn : ℕ → ℕ → ℕ → ℂ) (L N : ℕ)
    (reality : Bool) : ℕ → ℕ → ℕ → ℂ :=
  fun b a g =>
    if reality then
      irfftForward (2 * N - 1)
        (fun k => if k < N then wigner_inv_fban T flmn N b a (N - 1 + k) else 0) g
    else
      ifftForward (2 * N - 1)
        (ifftshift (2 * N - 1) (wigner_inv_fban T flmn N b a)) g

/-- The γ-axis FFT stage of the Wigner forward transform: FFT (real FFT
under `reality`) along γ, scaled by `2π/(2N-1)`. -/
def wigner_fwd_fban (f : ℕ → ℕ → ℕ → ℂ) (N : ℕ) (reality : Bool) :
    ℕ → ℕ → ℕ → ℂ :=
  fun b a k =>
    (if reality then rfftN (2 * N - 1) (f b a) k
     else fftshift (2 * N - 1) (fftN (2 * N - 1) (f b a)) k) *
      ((2 * Real.pi / (2 * (N : ℝ) - 1) : ℝ) : ℂ)

/-- The directly computed (positive-order, or non-reality) coefficient slot
of the Wigner forward transform: `(-1)^n` times the spin spherical forward
transform (at `spin = -n`) of γ-frequency chunk `n` of `fban`. -/
def wigner_fwd_posval (T : SphericalPair) (f : ℕ → ℕ → ℕ → ℂ) (N : ℕ)
    (reality : Bool) : ℕ → ℕ → ℕ → ℂ :=
  fun el j k =>
    (-1 : ℂ) ^ ((k : ℤ) - ((N : ℤ) - 1)) *
      T.fwd (-((k : ℤ) - ((N : ℤ) - 1)))
        (fun b a => wigner_fwd_fban f N reality b a
          (if reality then k - (N - 1) else k)) el j

/-- The sign vector `sgn = (-1)^abs(arange(-L+1, L))` of the Wigner forward
reality path, at column `j = L-1+m`. -/
def wigner_sgn (L : ℕ) : ℕ → ℂ :=
  fun j => (-1 : ℂ) ^ (((j : ℤ) - ((L : ℤ) - 1)).natAbs)

/-- The coefficient computation of `forward(f, L, N, …, sampling, reality,
nside)` from `s2fft/wigner/transform.py` below its fatal shape assert (the
entry point itself aborts — see `wigner_forward_entry` below); the same
scale-and-fill computation is realised, with γ stored on the leading axis,
by `forward_numpy` in `src/s2fft/jax_transforms/wigner.py` lines 378–408,
which has no such abort: FFT (real FFT under `reality`) along the γ
axis, scale by `2π/(2N-1)`, apply the spin spherical forward with
`spin = -n` and sign `(-1)^n` per order; under `reality` the negative
orders (slots `k < N-1`) are filled from the positive ones by conjugate,
flip over `m` and the sign vector `sgn·(-1)^n`; finally rescale by
`sqrt(4π/(2ℓ+1))`. -/
def wigner_forward (T : SphericalPair) (f : ℕ → ℕ → ℕ → ℂ) (L N : ℕ)
    (reality : Bool) : ℕ → ℕ → ℕ → ℂ :=
  fun el j k =>
    (if reality then
      if N - 1 ≤ k then wigner_fwd_posval T f N reality el j k
      else
        (starRingEnd ℂ)
          (wigner_fwd_posval T f N reality el (2 * L - 2 - j) (2 * (N - 1) - k) *
            wigner_sgn L (2 * L - 2 - j) * (-1 : ℂ) ^ (N - 1 - k : ℕ))
    else wigner_fwd_posval T f N reality el j k) *
      ((Real.sqrt (4 * Real.pi / (2 * (el : ℝ) + 1)) : ℝ) : ℂ)

/-- The `TypeError` message Python raises when `wigner/transform.py` calls
the three-parameter `f_shape(L, N, sampling)` of
`src/s2fft/wigner/samples.py` with four positional arguments. -/
def f_shape_arity_msg : String :=
  "TypeError: f_shape() takes from 2 to 3 positional arguments but 4 were given"

/-- The call `s2fft.wigner.samples.f_shape(L, N, sampling, nside)` exactly
as `wigner/transform.py` makes it (line 55 in `inverse`, line 129 in
`forward`): four positional arguments against the three-parameter
signature of `f_shape` in `src/s2fft/wigner/samples.py`, so Python raises
`TypeError` at the call site on every input, before the callee body (and
its sampling validation) can run. -/
def f_shape_call4 (L N : ℕ) (sampling : String) (nside : Option ℕ) :
    Except String (ℕ × ℕ × ℕ) :=
  Except.error f_shape_arity_msg

/-- `inverse(flmn, L, N, …, sampling, reality, nside)` from
`s2fft/wigner/transform.py`, faithfully including its error path: the
first executable statement after the shape assert evaluates
`samples.f_shape(L, N, sampling, nside)` (line 55), which raises
`TypeError` on every call, so the pixel-space computation
`wigner_inverse_core` is unreachable and the function aborts for every
input. -/
def wigner_inverse (T : SphericalPair) (flmn : ℕ → ℕ → ℕ → ℂ) (L N : ℕ)
    (sampling : String) (nside : Option ℕ) (reality : Bool) :
    Except String (ℕ → ℕ → ℕ → ℂ) :=
  (f_shape_call4 L N sampling nside).map
    (fun _ => wigner_inverse_core T flmn L N reality)

/-- `forward(f, L, N, …, sampling, reality, nside)` from
`s2fft/wigner/transform.py`, faithfully including its error path: the
opening `assert f.shape == samples.f_shape(L, N, sampling, nside)`
(line 129) makes the same four-positional-argument call, so the
coefficient computation `wigner_forward` is unreachable and the function
aborts for every input. -/
def wigner_forward_entry (T : SphericalPair) (f : ℕ → ℕ → ℕ → ℂ) (L N : ℕ)
    (sampling : String) (nside : Option ℕ) (reality : Bool) :
    Except String (ℕ → ℕ → ℕ → ℂ) :=
  (f_shape_call4 L N sampling nside).map
    (fun _ => wigner_forward T f L N reality)

/-! ## ResamplingLayer (`src/s2fft/general_precompute/resampling_jax.py`) -/

/-- Modelled from the spec: `s2fft.samples.ntheta(L, sampling)` for the two
equiangular schemes used by the resampler — `L` θ samples for MW, `L + 1`
(one extra pole sample) for MWSS (spec §4.4). -/
def rsNtheta (L : ℕ) (sampling : String) : ℕ :=
  if lowercase sampling = "mw" then L
  else if lowercase sampling = "mwss" then L + 1
  else 0

/-- Modelled from the spec: `s2fft.samples.nphi_equiang(L, sampling)` —
`2L - 1` φ samples for MW, `2L` for MWSS (spec §3, §4.4). -/
def rsNphi (L : ℕ) (sampling : String) : ℕ :=
  if lowercase sampling = "mw" then 2 * L - 1
  else if lowercase sampling = "mwss" then 2 * L
  else 0

/-- Modelled from the spec: `s2fft.samples.ntheta_extension(L, sampling)` —
the θ-periodically extended grid has `2L - 1` rows for MW and `2L` for MWSS
(spec §4.4: "periodically extend the MW field in θ to length 2L-1"). -/
def rsNthetaExt (L : ℕ) (sampling : String) : ℕ :=
  if lowercase sampling = "mw" then 2 * L - 1
  else if lowercase sampling = "mwss" then 2 * L
  else 0

/-- The zero-padded embedding of `f` into the `ntheta_ext × nphi` buffer
(`f_ext.at[0:ntheta, 0:nphi].set(f)` on a zero buffer). -/
def pe_fext0 (f : ℕ → ℕ → ℂ) (ntheta nphi : ℕ) : ℕ → ℕ → ℂ :=
  fun r c => if r < ntheta ∧ c < nphi then f r c else 0

/-- The shifted φ-axis FFT of the embedded buffer (`fftshift(fft(f_ext,
axis=1, norm="backward"), axes=1)`). -/
def pe_fft (f : ℕ → ℕ → ℂ) (ntheta nphi : ℕ) : ℕ → ℕ → ℂ :=
  fun r => fftshift nphi (fftN nphi (pe_fext0 f ntheta nphi r))

/-- The θ-reflection step of `periodic_extension`: rows `L + m_offset …
2L - 2 + m_offset`, columns `m_offset … 2L - 2 + m_offset` are overwritten
with the flipped non-pole rows times the parity factor `(-1)^(m + spin)`. -/
def pe_reflect (f : ℕ → ℕ → ℂ) (L : ℕ) (spin : ℤ) (ntheta nphi m_offset : ℕ) :
    ℕ → ℕ → ℂ :=
  fun r c =>
    if L + m_offset ≤ r ∧ r < 2 * L - 1 + m_offset ∧
        m_offset ≤ c ∧ c < 2 * L - 1 + m_offset then
      pe_fft f ntheta nphi (L - 2 + m_offset - (r - (L + m_offset))) c *
        (-1 : ℂ) ^ ((c : ℤ) - m_offset - ((L : ℤ) - 1) + spin)
    else pe_fft f ntheta nphi r c

/-- `periodic_extension(f, L, spin, sampling)` from
`general_precompute/resampling_jax.py`: embed `f` into the extended θ grid,
FFT and shift along φ, reflect the non-pole rows into the extension block
with the parity factor `(-1)^(m+spin)`, and inverse FFT along φ (backward
normalisation throughout). -/
def periodic_extension (f : ℕ → ℕ → ℂ) (L : ℕ) (spin : ℤ) (sampling : String) :
    ℕ → ℕ → ℂ :=
  fun r =>
    ifftBackward (rsNphi L sampling)
      (ifftshift (rsNphi L sampling)
        (pe_reflect f L spin (rsNtheta L sampling) (rsNphi L sampling)
          (if sampling = "mwss" then 1 else 0) r))

/-- `unextend(f_ext, L, sampling)` from
`general_precompute/resampling_jax.py`: the first `ntheta` rows for MW and
MWSS, `ValueError` otherwise. -/
def unextend (f_ext : ℕ → ℕ → ℂ) (L : ℕ) (sampling : String) :
    Except String (ℕ → ℕ → ℂ) :=
  if lowercase sampling = "mw" then
    Except.ok fun r c => if r < L then f_ext r c else 0
  else if lowercase sampling = "mwss" then
    Except.ok fun r c => if r < L + 1 then f_ext r c else 0
  else Except.error "Only mw and mwss supported for periodic extension"

/-! ## KernelConstruction (`src/s2fft/precompute_transforms/construct.py`) -/

/-- Modelled from the spec: the external collaborators of
`precompute_transforms/construct.py` whose modules are not part of this
repository snapshot — the θ grids `s2_samples.thetas(L, sampling, nside)`,
the Turok Wigner-d slice `recursions.turok.compute_slice(θ, ℓ, L, -spin,
reality)` (a real vector over the 2L-1 orders, spec §4.1), the quadrature
weights `quadrature.quad_weights_transform(L, sampling, 0, nside)` (a real
weight per ring, spec §6), and the per-ring HEALPix phase-shift vector
`s2_samples.ring_phase_shift_hp(L, t, nside, forward)` (spec §4.2). -/
structure ConstructCollab where
  thetas : ℕ → String → Option ℕ → List ℝ
  compute_slice : ℝ → ℕ → ℕ → ℤ → Bool → (ℕ → ℝ)
  quad_weights_transform : ℕ → String → ℕ → Option ℕ → (ℕ → ℝ)
  ring_phase_shift_hp : ℕ → ℕ → Option ℕ → Bool → (ℕ → ℂ)

/-- `healpix_phase_shifts(L, nside, forward)` from
`precompute_transforms/construct.py`: row `t` is the ring phase shift of
ring `t`. -/
def healpix_phase_shifts (C : ConstructCollab) (L : ℕ) (nside : Option ℕ)
    (forward : Bool) : ℕ → ℕ → ℂ :=
  fun t m => C.ring_phase_shift_hp L t nside forward m

/-- The result of `spin_spherical_kernel`: whether a warning was emitted,
the θ and m dimensions of the returned array, and its entries. -/
structure KernelOut where
  warned : Bool
  tdim : ℕ
  mdim : ℕ
  entry : ℕ → ℕ → ℕ → ℂ

/-- `spin_spherical_kernel(L, spin, reality, sampling, nside, forward)` from
`precompute_transforms/construct.py`: a reality request with nonzero spin
resets `reality` to `False` and warns; a forward kernel for MW/MWSS is built
on the doubled MWSS θ grid; rows `ℓ < |spin|` stay zero; each slice is
scaled by `sqrt((2ℓ+1)/4π)`, forward kernels are weighted by the ring
quadrature weights, and HEALPix kernels by the per-ring phase shifts. -/
def spin_spherical_kernel (C : ConstructCollab) (L : ℕ) (spin : ℤ)
    (reality : Bool) (sampling : String) (nside : Option ℕ) (forward : Bool) :
    KernelOut :=
  let rw : Bool × Bool :=
    if reality ∧ spin ≠ 0 then (false, true) else (reality, false)
  let reality2 := rw.1
  let warned := rw.2
  let m_start_ind := if reality2 then L - 1 else 0
  let m_dim := if reality2 then L else 2 * L - 1
  let sth : String × List ℝ :=
    if forward ∧ (lowercase sampling = "mw" ∨ lowercase sampling = "mwss") then
      ("mwss", C.thetas (2 * L) "mwss" none)
    else (sampling, C.thetas L sampling nside)
  let sampling2 := sth.1
  let ths := sth.2
  let dl0 : ℕ → ℕ → ℕ → ℂ := fun t el m =>
    if spin.natAbs ≤ el ∧ el < L then
      ((C.compute_slice (ths.getD t 0) el L (-spin) reality2 (m_start_ind + m) *
          Real.sqrt ((2 * (el : ℝ) + 1) / (4 * Real.pi)) : ℝ) : ℂ)
    else 0
  let dl1 : ℕ → ℕ → ℕ → ℂ :=
    if forward then
      fun t el m =>
        dl0 t el m * ((C.quad_weights_transform L sampling2 0 nside t : ℝ) : ℂ)
    else dl0
  let dl2 : ℕ → ℕ → ℕ → ℂ :=
    if lowercase sampling2 = "healpix" then
      fun t el m =>
        dl1 t el m * healpix_phase_shifts C L nside forward t (m_start_ind + m)
    else dl1
  { warned := warned, tdim := ths.length, mdim := m_dim, entry := dl2 }

/-- A trivial instantiation of the spin-spherical contract used to witness
the Wigner-level theorems at `L = 1`: with a single coefficient and a
single pixel the identity maps satisfy the round-trip and linearity
contract. -/
def idPair : SphericalPair :=
  { inv := fun _ g => g, fwd := fun _ h => h }

/-- A trivial instantiation of the kernel-construction collaborators, used
only to witness the downgrade theorem. -/
def trivCollab : ConstructCollab :=
  { thetas := fun _ _ _ => []
    compute_slice := fun _ _ _ _ _ _ => 0
    quad_weights_transform := fun _ _ _ _ _ => 0
    ring_phase_shift_hp := fun _ _ _ _ _ => 0 }

theorem npexp_zero (n : ℕ) : npexp n 0 = 1 := by
  simp [npexp]

theorem npexp_eq_zeta_zpow (n : ℕ) (t : ℤ) :
    npexp n t = Complex.exp (2 * Real.pi * Complex.I / n) ^ t := by
  rw [← Complex.exp_int_mul]
  unfold npexp
  ring_nf

theorem npexp_add (n : ℕ) (s t : ℤ) :
    npexp n (s + t) = npexp n s * npexp n t := by
  rw [npexp_eq_zeta_zpow, npexp_eq_zeta_zpow, npexp_eq_zeta_zpow, zpow_add₀]
  exact Complex.exp_ne_zero _

theorem npexp_n_dvd (n : ℕ) (hn : n ≠ 0) (t : ℤ) (h : (n : ℤ) ∣ t) :
    npexp n t = 1 := by
  rw [npexp_eq_zeta_zpow]
  exact ((Complex.isPrimitiveRoot_exp n hn).zpow_eq_one_iff_dvd t).mpr h

theorem npexp_conj (n : ℕ) (t : ℤ) :
    (starRingEnd ℂ) (npexp n t) = npexp n (-t) := by
  unfold npexp
  rw [← Complex.exp_conj]
  congr 1
  simp only [map_div₀, map_mul, Complex.conj_I, Complex.conj_ofReal, map_ofNat,
    map_intCast, map_natCast]
  push_cast
  ring

/-- Orthogonality of the discrete characters: the geometric sum of the
`n`-th roots of unity vanishes off the divisible frequencies. -/
theorem sum_npexp (n : ℕ) (hn : n ≠ 0) (d : ℤ) :
    ∑ k ∈ Finset.range n, npexp n ((k : ℤ) * d) =
      if (n : ℤ) ∣ d then (n : ℂ) else 0 := by
  by_cases h : (n : ℤ) ∣ d
  · simp only [h, if_true]
    have : ∀ k ∈ Finset.range n, npexp n ((k : ℤ) * d) = 1 := by
      intro k _
      exact npexp_n_dvd n hn _ (Dvd.dvd.mul_left h _)
    rw [Finset.sum_congr rfl this]
    simp
  · simp only [h, if_false]
    set z := Complex.exp (2 * Real.pi * Complex.I / n) with hz
    have hprim : IsPrimitiveRoot z n := Complex.isPrimitiveRoot_exp n hn
    have hzd : z ^ d ≠ 1 := by
      intro hcon
      exact h ((hprim.zpow_eq_one_iff_dvd d).mp hcon)
    have hterm : ∀ k ∈ Finset.range n, npexp n ((k : ℤ) * d) = (z ^ d) ^ k := by
      intro k _
      rw [npexp_eq_zeta_zpow, ← hz, mul_comm, zpow_mul]
      norm_cast
    rw [Finset.sum_congr rfl hterm]
    rw [geom_sum_eq hzd n]
    have : (z ^ d) ^ n = 1 := by
      rw [← zpow_natCast (z ^ d) n, ← zpow_mul, mul_comm, zpow_mul]
      rw [zpow_natCast z n, hprim.pow_eq_one, one_zpow]
    rw [this]
    simp

theorem not_dvd_of_lt_of_ne {a b : ℤ} (hne : a ≠ b) (ha : 0 ≤ a) (hb : 0 ≤ b)
    {n : ℤ} (han : a < n) (hbn : b < n) : ¬ (n ∣ (a - b)) := by
  intro ⟨c, hc⟩
  have hn0 : 0 < n := lt_of_le_of_lt ha han
  rcases lt_trichotomy c 0 with hc0 | hc0 | hc0
  · nlinarith [mul_le_mul_of_nonneg_left (show c ≤ -1 by omega) hn0.le]
  · rw [hc0, mul_zero] at hc
    exact hne (by omega)
  · nlinarith [mul_le_mul_of_nonneg_left (show 1 ≤ c by omega) hn0.le]

/-- Fourier inversion, `forward`-normalised inverse then `backward`
forward: `fftN n (ifftForward n x) = n • x` on indices below `n`. -/
theorem fftN_ifftForward (n : ℕ) (hn : n ≠ 0) (x : ℕ → ℂ) (k : ℕ)
    (hk : k < n) : fftN n (ifftForward n x) k = (n : ℂ) * x k := by
  unfold fftN ifftForward
  simp only [Finset.sum_mul]
  rw [Finset.sum_comm]
  have hpt : ∀ p ∈ Finset.range n,
      ∑ j ∈ Finset.range n, x p * npexp n ((p : ℤ) * j) * npexp n (-((j : ℤ) * k)) =
        x p * (if (n : ℤ) ∣ ((p : ℤ) - k) then (n : ℂ) else 0) := by
    intro p _
    have hrw : ∀ j ∈ Finset.range n,
        x p * npexp n ((p : ℤ) * j) * npexp n (-((j : ℤ) * k)) =
          x p * npexp n ((j : ℤ) * ((p : ℤ) - (k : ℤ))) := by
      intro j _
      rw [mul_assoc, ← npexp_add]
      congr 2
      ring
    rw [Finset.sum_congr rfl hrw, ← Finset.mul_sum, sum_npexp n hn]
  rw [Finset.sum_congr rfl hpt]
  have hsel : ∀ p ∈ Finset.range n,
      x p * (if (n : ℤ) ∣ ((p : ℤ) - k) then (n : ℂ) else 0) =
        if p = k then x p * n else 0 := by
    intro p hp
    by_cases hpk : p = k
    · subst hpk
      simp
    · have hnd : ¬ ((n : ℤ) ∣ ((p : ℤ) - k)) := by
        apply not_dvd_of_lt_of_ne
        · exact_mod_cast hpk
        · exact Int.ofNat_nonneg p
        · exact Int.ofNat_nonneg k
        · exact_mod_cast Finset.mem_range.mp hp
        · exact_mod_cast hk
      simp [hnd, hpk]
  rw [Finset.sum_congr rfl hsel, Finset.sum_ite_eq' (Finset.range n) k]
  simp [Finset.mem_range.mpr hk, mul_comm]

/-- Fourier inversion with the `backward` normalisation pair:
`ifftBackward n (fftN n x) = x` on indices below `n`. -/
theorem ifftBackward_fftN (n : ℕ) (hn : n ≠ 0) (x : ℕ → ℂ) (p : ℕ)
    (hp : p < n) : ifftBackward n (fftN n x) p = x p := by
  unfold ifftBackward fftN
  simp only [Finset.sum_mul]
  rw [Finset.sum_comm]
  have hpt : ∀ j ∈ Finset.range n,
      ∑ k ∈ Finset.range n, x j * npexp n (-((j : ℤ) * k)) * npexp n ((k : ℤ) * p) =
        x j * (if (n : ℤ) ∣ ((p : ℤ) - j) then (n : ℂ) else 0) := by
    intro j _
    have hrw : ∀ k ∈ Finset.range n,
        x j * npexp n (-((j : ℤ) * k)) * npexp n ((k : ℤ) * p) =
          x j * npexp n ((k : ℤ) * ((p : ℤ) - (j : ℤ))) := by
      intro k _
      rw [mul_assoc, ← npexp_add]
      congr 2
      ring
    rw [Finset.sum_congr rfl hrw, ← Finset.mul_sum, sum_npexp n hn]
  rw [Finset.sum_congr rfl hpt]
  have hsel : ∀ j ∈ Finset.range n,
      x j * (if (n : ℤ) ∣ ((p : ℤ) - j) then (n : ℂ) else 0) =
        if j = p then x j * n else 0 := by
    intro j hj
    by_cases hjp : j = p
    · subst hjp
      simp
    · have hnd : ¬ ((n : ℤ) ∣ ((p : ℤ) - j)) := by
        apply not_dvd_of_lt_of_ne
        · exact_mod_cast Ne.symm hjp
        · exact Int.ofNat_nonneg p
        · exact Int.ofNat_nonneg j
        · exact_mod_cast hp
        · exact_mod_cast Finset.mem_range.mp hj
      simp [hnd, hjp]
  rw [Finset.sum_congr rfl hsel, Finset.sum_ite_eq' (Finset.range n) p]
  have hn' : (n : ℂ) ≠ 0 := Nat.cast_ne_zero.mpr hn
  rw [if_pos (Finset.mem_range.mpr hp)]
  field_simp

theorem ifftshift_fftshift (n : ℕ) (x : ℕ → ℂ) (k : ℕ) (hk : k < n) :
    ifftshift n (fftshift n x) k = x k := by
  simp only [ifftshift, fftshift]
  rw [Nat.mod_add_mod]
  have h1 : k + n / 2 + (n - n / 2) = k + n := by
    have := Nat.div_le_self n 2
    omega
  rw [h1, Nat.add_mod_right, Nat.mod_eq_of_lt hk]

theorem fftshift_ifftshift (n : ℕ) (x : ℕ → ℂ) (k : ℕ) (hk : k < n) :
    fftshift n (ifftshift n x) k = x k := by
  simp only [ifftshift, fftshift]
  rw [Nat.mod_add_mod]
  have h1 : k + (n - n / 2) + n / 2 = k + n := by
    have := Nat.div_le_self n 2
    omega
  rw [h1, Nat.add_mod_right, Nat.mod_eq_of_lt hk]

theorem fftN_congr (n : ℕ) (x y : ℕ → ℂ) (h : ∀ j, j < n → x j = y j) (k : ℕ) :
    fftN n x k = fftN n y k := by
  unfold fftN
  exact Finset.sum_congr rfl fun j hj => by rw [h j (Finset.mem_range.mp hj)]

theorem ifftForward_congr (n : ℕ) (x y : ℕ → ℂ) (h : ∀ j, j < n → x j = y j)
    (k : ℕ) : ifftForward n x k = ifftForward n y k := by
  unfold ifftForward
  exact Finset.sum_congr rfl fun j hj => by rw [h j (Finset.mem_range.mp hj)]

theorem ifftBackward_congr (n : ℕ) (x y : ℕ → ℂ) (h : ∀ j, j < n → x j = y j)
    (k : ℕ) : ifftBackward n x k = ifftBackward n y k := by
  unfold ifftBackward
  congr 1
  exact Finset.sum_congr rfl fun j hj => by rw [h j (Finset.mem_range.mp hj)]

theorem ifftshift_congr (n : ℕ) (hn : n ≠ 0) (x y : ℕ → ℂ)
    (h : ∀ j, j < n → x j = y j) (k : ℕ) :
    ifftshift n x k = ifftshift n y k := by
  unfold ifftshift
  exact h _ (Nat.mod_lt _ (Nat.pos_of_ne_zero hn))

theorem fftshift_congr (n : ℕ) (hn : n ≠ 0) (x y : ℕ → ℂ)
    (h : ∀ j, j < n → x j = y j) (k : ℕ) :
    fftshift n x k = fftshift n y k := by
  unfold fftshift
  exact h _ (Nat.mod_lt _ (Nat.pos_of_ne_zero hn))

/-! ## Claim C2: spectral folding against spectral periodic extension -/

/-- C2 (amended): `spectral_folding` is a left inverse of
`spectral_periodic_extension` exactly when the ring has the full length
`nphi = 2 L`; there both maps restrict to the identity on the spectral
window and the two aliasing loops are empty.  For `nphi < 2 L` the
composition scales entries up (see the counterexample), so the claim's
range `nphi ≤ 2 L` must be narrowed to `nphi = 2 L`. -/
theorem C2_fold_extend_roundtrip (L : ℕ) (hL : 1 ≤ L) (fm : ℕ → ℂ) (k : ℕ)
    (hk : k < 2 * L) :
    spectral_folding (spectral_periodic_extension fm (2 * L) L) (2 * L) L k =
      fm k := by
  have h2 : 2 * L / 2 = L := by omega
  simp [spectral_folding, spectral_periodic_extension, h2, hk]

/-- C2 counterexample: at `L = 1`, `nphi = 1` (a legal pair, `nphi ≤ 2 L`),
folding the periodic extension of the constant-one vector doubles the
entry, so the fold/extend round trip claimed for every `nphi ≤ 2 L` fails
whenever `nphi < 2 L`. -/
theorem C2_counterexample :
    spectral_folding (spectral_periodic_extension (fun _ => (1 : ℂ)) 1 1) 1 1 0 ≠
      (fun _ => (1 : ℂ)) 0 := by
  have hval :
      spectral_folding (spectral_periodic_extension (fun _ => (1 : ℂ)) 1 1) 1 1 0
        = 2 := by
    norm_num [spectral_folding, spectral_periodic_extension]
  rw [hval]
  norm_num

/-- Witness for the amended C2 theorem at `L = 1`, `k = 1`. -/
theorem C2_witness :
    spectral_folding (spectral_periodic_extension (fun _ => (5 : ℂ)) (2 * 1) 1)
        (2 * 1) 1 1 = (fun _ => (5 : ℂ)) 1 :=
  C2_fold_extend_roundtrip 1 (le_refl 1) (fun _ => (5 : ℂ)) 1 (by norm_num)

/-! ## Claim C4: coefficient packing round trips -/

theorem writeAll_not_mem {α : Type} [DecidableEq α] (ps : List (α × ℂ))
    (f : α → ℂ) (i : α) (h : ∀ p ∈ ps, p.1 ≠ i) : writeAll ps f i = f i := by
  induction ps generalizing f with
  | nil => rfl
  | cons a t ih =>
    have hw : writeAll (a :: t) f = writeAll t (Function.update f a.1 a.2) :=
      rfl
    rw [hw, ih _ fun p hp => h p (List.mem_cons_of_mem a hp)]
    exact Function.update_noteq (Ne.symm (h a (List.mem_cons_self a t))) _ _

theorem writeAll_eq_of_mem {α : Type} [DecidableEq α] (ps : List (α × ℂ))
    (f : α → ℂ) (p : α × ℂ) (hp : p ∈ ps)
    (huniq : ∀ q ∈ ps, q.1 = p.1 → q.2 = p.2) : writeAll ps f p.1 = p.2 := by
  induction ps generalizing f with
  | nil => cases hp
  | cons a t ih =>
    have hw : writeAll (a :: t) f = writeAll t (Function.update f a.1 a.2) :=
      rfl
    rw [hw]
    by_cases hlater : ∃ q ∈ t, q.1 = p.1
    · obtain ⟨q, hq, hq1⟩ := hlater
      have hq2 : q.2 = p.2 := huniq q (List.mem_cons_of_mem a hq) hq1
      have hqp : q = p := Prod.ext hq1 hq2
      rw [hqp] at hq
      exact ih _ hq fun r hr hr1 => huniq r (List.mem_cons_of_mem a hr) hr1
    · push_neg at hlater
      rw [writeAll_not_mem t _ p.1 hlater]
      rcases List.mem_cons.mp hp with rfl | hpt
      · exact Function.update_same _ _ _
      · exact absurd rfl (hlater p hpt)

/-- Membership in the packing iteration space is exactly the valid index
range `-(N-1) ≤ n ≤ N-1`, `el < L`, `|m| ≤ el`. -/
theorem mem_wignerIdx (L N : ℕ) (n : ℤ) (el : ℕ) (m : ℤ) :
    (n, el, m) ∈ wignerIdx L N ↔
      (-(N : ℤ) + 1 ≤ n ∧ n ≤ (N : ℤ) - 1 ∧ el < L ∧ m.natAbs ≤ el) := by
  constructor
  · intro hq
    obtain ⟨ni, hni, hq2⟩ := List.mem_flatMap.mp hq
    obtain ⟨el', hel', hq3⟩ := List.mem_flatMap.mp hq2
    obtain ⟨mi, hmi, heq⟩ := List.mem_map.mp hq3
    rw [List.mem_range] at hni hel' hmi
    rw [Prod.mk.injEq, Prod.mk.injEq] at heq
    obtain ⟨h1, h2, h3⟩ := heq
    subst h2
    refine ⟨by omega, by omega, hel', by omega⟩
  · rintro ⟨h1, h2, h3, h4⟩
    apply List.mem_flatMap.mpr
    refine ⟨(n + ((N : ℤ) - 1)).toNat, List.mem_range.mpr (by omega), ?_⟩
    apply List.mem_flatMap.mpr
    refine ⟨el, List.mem_range.mpr h3, ?_⟩
    apply List.mem_map.mpr
    refine ⟨(m + (el : ℤ)).toNat, List.mem_range.mpr (by omega), ?_⟩
    rw [Prod.mk.injEq, Prod.mk.injEq]
    refine ⟨by omega, rfl, by omega⟩

theorem mul_self_le_of_le {a b : ℤ} (ha : 0 ≤ a) (h : a ≤ b) :
    a * a ≤ b * b :=
  mul_le_mul h h ha (le_trans ha h)

theorem sq_block_inj {a b B : ℤ} (ha : 0 ≤ a) (hb : 0 ≤ b)
    (h1 : a * a ≤ B) (h2 : B < (a + 1) * (a + 1)) (h3 : b * b ≤ B)
    (h4 : B < (b + 1) * (b + 1)) : a = b := by
  rcases lt_trichotomy a b with h | h | h
  · exfalso
    have hle : a + 1 ≤ b := by omega
    have := mul_self_le_of_le (by omega : (0 : ℤ) ≤ a + 1) hle
    omega
  · exact h
  · exfalso
    have hle : b + 1 ≤ a := by omega
    have := mul_self_le_of_le (by omega : (0 : ℤ) ≤ b + 1) hle
    omega

/-- On the valid index range, `elmn2ind` lands in `[0, (2N-1)·L·L)`. -/
theorem elmn2ind_bounds (L N : ℕ) (el : ℕ) (m n : ℤ) (hel : el < L)
    (hm : m.natAbs ≤ el) (hn1 : -(N : ℤ) + 1 ≤ n) (hn2 : n ≤ (N : ℤ) - 1) :
    0 ≤ elmn2ind el m n L N ∧
      elmn2ind el m n L N < ((2 * N - 1 : ℕ) : ℤ) * L * L := by
  have hm1 : -((el : ℤ)) ≤ m := by omega
  have hm2 : m ≤ (el : ℤ) := by omega
  have hA0 : 0 ≤ (N : ℤ) - 1 + n := by omega
  have hA2 : (N : ℤ) - 1 + n ≤ 2 * (N : ℤ) - 2 := by omega
  have hL : (el : ℤ) + 1 ≤ L := by exact_mod_cast hel
  have hsq : ((el : ℤ) + 1) * ((el : ℤ) + 1) ≤ (L : ℤ) * L :=
    mul_self_le_of_le (by positivity) hL
  have hLL : (0 : ℤ) ≤ (L : ℤ) * L := by positivity
  have ht1 : 0 ≤ ((N : ℤ) - 1 + n) * ((L : ℤ) * L) := mul_nonneg hA0 hLL
  have ht2 : ((N : ℤ) - 1 + n) * ((L : ℤ) * L) ≤
      (2 * (N : ℤ) - 2) * ((L : ℤ) * L) := mul_le_mul_of_nonneg_right hA2 hLL
  have hN : 1 ≤ N := by omega
  have hcast : ((2 * N - 1 : ℕ) : ℤ) = 2 * (N : ℤ) - 1 := by omega
  unfold elmn2ind
  rw [hcast]
  constructor
  · nlinarith [sq_nonneg ((el : ℤ))]
  · nlinarith [sq_nonneg ((el : ℤ))]

/-- `elmn2ind` is injective on the valid index range. -/
theorem elmn2ind_inj (L N : ℕ) (el el' : ℕ) (m m' n n' : ℤ)
    (hel : el < L) (hm : m.natAbs ≤ el)
    (hel' : el' < L) (hm' : m'.natAbs ≤ el')
    (heq : elmn2ind el m n L N = elmn2ind el' m' n' L N) :
    el = el' ∧ m = m' ∧ n = n' := by
  have heq2 : ((N : ℤ) - 1 + n) * ((L : ℤ) * L) + ((el : ℤ) * el + el + m) =
      ((N : ℤ) - 1 + n') * ((L : ℤ) * L) + ((el' : ℤ) * el' + el' + m') := by
    unfold elmn2ind at heq
    linear_combination heq
  clear heq
  have hm1 : -((el : ℤ)) ≤ m ∧ m ≤ (el : ℤ) := by
    constructor <;> omega
  have hm1' : -((el' : ℤ)) ≤ m' ∧ m' ≤ (el' : ℤ) := by
    constructor <;> omega
  have hLL : (0 : ℤ) < (L : ℤ) * L := by
    have : 0 < L := by omega
    positivity
  have hsq : ((el : ℤ) + 1) * ((el : ℤ) + 1) ≤ (L : ℤ) * L :=
    mul_self_le_of_le (by positivity) (by exact_mod_cast hel)
  have hsq' : ((el' : ℤ) + 1) * ((el' : ℤ) + 1) ≤ (L : ℤ) * L :=
    mul_self_le_of_le (by positivity) (by exact_mod_cast hel')
  have hB1 : 0 ≤ (el : ℤ) * el + el + m := by nlinarith [sq_nonneg ((el : ℤ))]
  have hB2 : (el : ℤ) * el + el + m < (L : ℤ) * L := by nlinarith
  have hB1' : 0 ≤ (el' : ℤ) * el' + el' + m' := by
    nlinarith [sq_nonneg ((el' : ℤ))]
  have hB2' : (el' : ℤ) * el' + el' + m' < (L : ℤ) * L := by nlinarith
  have hAA : (N : ℤ) - 1 + n = (N : ℤ) - 1 + n' := by
    have h1 : (((N : ℤ) - 1 + n) * ((L : ℤ) * L) +
        ((el : ℤ) * el + el + m)) / ((L : ℤ) * L) = (N : ℤ) - 1 + n := by
      rw [add_comm, Int.add_mul_ediv_right _ _ (ne_of_gt hLL),
        Int.ediv_eq_zero_of_lt hB1 hB2, zero_add]
    have h2 : (((N : ℤ) - 1 + n') * ((L : ℤ) * L) +
        ((el' : ℤ) * el' + el' + m')) / ((L : ℤ) * L) = (N : ℤ) - 1 + n' := by
      rw [add_comm, Int.add_mul_ediv_right _ _ (ne_of_gt hLL),
        Int.ediv_eq_zero_of_lt hB1' hB2', zero_add]
    rw [← h1, ← h2, heq2]
  have hBB : (el : ℤ) * el + el + m = (el' : ℤ) * el' + el' + m' := by
    rw [hAA] at heq2
    linarith [heq2]
  have hq1 : (el : ℤ) * el ≤ (el : ℤ) * el + el + m := by linarith [hm1.1]
  have hexp : ((el : ℤ) + 1) * ((el : ℤ) + 1) = (el : ℤ) * el + 2 * el + 1 := by
    ring
  have hexp' : ((el' : ℤ) + 1) * ((el' : ℤ) + 1) =
      (el' : ℤ) * el' + 2 * el' + 1 := by ring
  have hq2 : (el : ℤ) * el + el + m < ((el : ℤ) + 1) * ((el : ℤ) + 1) := by
    rw [hexp]; linarith [hm1.2]
  have hq3 : (el' : ℤ) * el' ≤ (el : ℤ) * el + el + m := by
    rw [hBB]; linarith [hm1'.1]
  have hq4 : (el : ℤ) * el + el + m < ((el' : ℤ) + 1) * ((el' : ℤ) + 1) := by
    rw [hBB, hexp']; linarith [hm1'.2]
  have hel_eq : (el : ℤ) = el' :=
    sq_block_inj (Int.ofNat_nonneg el) (Int.ofNat_nonneg el') hq1 hq2 hq3 hq4
  have hel2 : el = el' := by exact_mod_cast hel_eq
  subst hel2
  have hmm : m = m' := by linarith [hBB]
  subst hmm
  refine ⟨rfl, rfl, by linarith [hAA]⟩

/-- Every flat index below `(2N-1)·L·L` is hit by `elmn2ind` from the valid
range: decode by `n = i / L² - (N-1)`, `el = sqrt (i % L²)`,
`m = i % L² - el² - el`. -/
theorem elmn2ind_decode (L N : ℕ) (i : ℕ) (hi : i < flmn_shape_1d L N) :
    ∃ (el : ℕ) (m n : ℤ), el < L ∧ m.natAbs ≤ el ∧
      -(N : ℤ) + 1 ≤ n ∧ n ≤ (N : ℤ) - 1 ∧ elmn2ind el m n L N = i := by
  unfold flmn_shape_1d at hi
  have hL : 0 < L := by
    by_contra h
    have : L = 0 := by omega
    subst this
    simp at hi
  have hLL : 0 < L * L := Nat.mul_pos hL hL
  set nOff := i / (L * L) with hnOff
  set r := i % (L * L) with hr
  set el := Nat.sqrt r with helr
  have hrlt : r < L * L := Nat.mod_lt _ hLL
  have hel1 : el * el ≤ r := Nat.sqrt_le r
  have hel2 : r < (el + 1) * (el + 1) := Nat.lt_succ_sqrt r
  have helL : el < L := by
    rw [helr]
    exact Nat.sqrt_lt.mpr hrlt
  have hi' : i < (2 * N - 1) * (L * L) := by
    rw [← Nat.mul_assoc]
    exact hi
  have hnlt : nOff < 2 * N - 1 := by
    rw [hnOff, Nat.div_lt_iff_lt_mul hLL]
    exact hi'
  have hN : 1 ≤ N := by
    rcases Nat.eq_zero_or_pos N with h0 | h
    · subst h0
      simp at hi'
    · exact h
  refine ⟨el, (r : ℤ) - el * el - el, (nOff : ℤ) - ((N : ℤ) - 1), helL, ?_, ?_,
    ?_, ?_⟩
  · have hu1 : ((el : ℤ)) * el ≤ (r : ℤ) := by exact_mod_cast hel1
    have hu2 : (r : ℤ) < (el : ℤ) * el + 2 * el + 1 := by
      have : (r : ℤ) < ((el : ℤ) + 1) * ((el : ℤ) + 1) := by exact_mod_cast hel2
      nlinarith
    have hlow : -((el : ℤ)) ≤ (r : ℤ) - el * el - el := by linarith
    have hhigh : (r : ℤ) - el * el - el ≤ (el : ℤ) := by linarith
    omega
  · have : (0 : ℤ) ≤ (nOff : ℤ) := Int.ofNat_nonneg _
    omega
  · have : (nOff : ℤ) < 2 * (N : ℤ) - 1 := by
      have := hnlt
      omega
    omega
  · have hdm : ((L : ℤ) * L) * (nOff : ℤ) + (r : ℤ) = (i : ℤ) := by
      have := Nat.div_add_mod i (L * L)
      rw [hnOff, hr]
      push_cast
      exact_mod_cast this
    have hident :
        elmn2ind el ((r : ℤ) - el * el - el) ((nOff : ℤ) - ((N : ℤ) - 1)) L N =
          ((L : ℤ) * L) * (nOff : ℤ) + (r : ℤ) := by
      unfold elmn2ind
      ring
    rw [hident, hdm]

theorem writeAll_eq_of_mem' {α : Type} [DecidableEq α] (ps : List (α × ℂ))
    (f : α → ℂ) (a : α) (v : ℂ) (hp : (a, v) ∈ ps)
    (huniq : ∀ q ∈ ps, q.1 = a → q.2 = v) : writeAll ps f a = v :=
  writeAll_eq_of_mem ps f (a, v) hp huniq

/-- Uniqueness of writes for the 3-D-keyed packing list: any pair of the
write list whose key is the key of the valid index `(n, el, m)` carries
that index's value. -/
theorem wigner_key3_uniq (L N : ℕ) (G : (ℤ × ℕ × ℤ) → ℂ) (n : ℤ) (el : ℕ)
    (m : ℤ) (hel : el < L) (hm : m.natAbs ≤ el) (hn1 : -(N : ℤ) + 1 ≤ n)
    (hn2 : n ≤ (N : ℤ) - 1) :
    ∀ q ∈ (wignerIdx L N).map fun q =>
        ((q.2.1, (((L : ℤ) - 1) + q.2.2).toNat, (((N : ℤ) - 1) + q.1).toNat),
          G q),
      q.1 = (el, (((L : ℤ) - 1) + m).toNat, (((N : ℤ) - 1) + n).toNat) →
        q.2 = G (n, el, m) := by
  rintro ⟨key', v'⟩ hq' hkey
  obtain ⟨q', hq'mem, hq'eq⟩ := List.mem_map.mp hq'
  obtain ⟨n', el', m'⟩ := q'
  obtain ⟨hb1, hb2, hb3, hb4⟩ := (mem_wignerIdx L N n' el' m').mp hq'mem
  have hm1 : -((el : ℤ)) ≤ m ∧ m ≤ el := by omega
  have hm1' : -((el' : ℤ)) ≤ m' ∧ m' ≤ el' := by omega
  clear hm hb4
  dsimp only at hq'eq
  rw [Prod.mk.injEq] at hq'eq
  obtain ⟨hk1, hv1⟩ := hq'eq
  rw [← hk1] at hkey
  dsimp only at hkey
  rw [Prod.mk.injEq, Prod.mk.injEq] at hkey
  obtain ⟨he1, he2, he3⟩ := hkey
  subst he1
  have hm'm : m' = m := by omega
  have hn'n : n' = n := by omega
  subst hm'm
  subst hn'n
  exact hv1.symm

/-- Uniqueness of writes for the flat-keyed packing list: any pair of the
write list whose key is the flat index of the valid `(n, el, m)` carries
that index's value. -/
theorem wigner_ind_uniq (L N : ℕ) (G : (ℤ × ℕ × ℤ) → ℂ) (n : ℤ) (el : ℕ)
    (m : ℤ) (hel : el < L) (hm : m.natAbs ≤ el) (hn1 : -(N : ℤ) + 1 ≤ n)
    (hn2 : n ≤ (N : ℤ) - 1) :
    ∀ q ∈ (wignerIdx L N).map fun q =>
        ((elmn2ind q.2.1 q.2.2 q.1 L N).toNat, G q),
      q.1 = (elmn2ind el m n L N).toNat → q.2 = G (n, el, m) := by
  rintro ⟨key', v'⟩ hq' hkey
  obtain ⟨q', hq'mem, hq'eq⟩ := List.mem_map.mp hq'
  obtain ⟨n', el', m'⟩ := q'
  obtain ⟨hb1, hb2, hb3, hb4⟩ := (mem_wignerIdx L N n' el' m').mp hq'mem
  dsimp only at hq'eq
  rw [Prod.mk.injEq] at hq'eq
  obtain ⟨hk1, hv1⟩ := hq'eq
  rw [← hk1] at hkey
  dsimp only at hkey
  have hnn1 := (elmn2ind_bounds L N el' m' n' hb3 hb4 hb1 hb2).1
  have hnn2 := (elmn2ind_bounds L N el m n hel hm hn1 hn2).1
  have hindeq : elmn2ind el' m' n' L N = elmn2ind el m n L N := by omega
  obtain ⟨hee, hmm, hnn⟩ :=
    elmn2ind_inj L N el' el m' m n' n hb3 hb4 hel hm hindeq
  subst hee
  subst hmm
  subst hnn
  exact hv1.symm

/-- Direction 2 of C4: unpacking then packing is the identity on flat
coefficient vectors of length `(2N-1)·L·L`. -/
theorem flmn_1d_roundtrip (L N : ℕ) (y : ℕ → ℂ) (i : ℕ)
    (hi : i < flmn_shape_1d L N) :
    flmn_3d_to_1d (flmn_1d_to_3d y L N) L N i = y i := by
  obtain ⟨el, m, n, hel, hm, hn1, hn2, hind⟩ := elmn2ind_decode L N i hi
  have hmem : (n, el, m) ∈ wignerIdx L N :=
    (mem_wignerIdx L N n el m).mpr ⟨hn1, hn2, hel, hm⟩
  have htoNat : (elmn2ind el m n L N).toNat = i := by
    rw [hind]
    omega
  have hinner : flmn_1d_to_3d y L N
      (el, (((L : ℤ) - 1) + m).toNat, (((N : ℤ) - 1) + n).toNat) = y i := by
    unfold flmn_1d_to_3d
    refine (writeAll_eq_of_mem' _ _ _ (y (elmn2ind el m n L N).toNat)
      (List.mem_map.mpr ⟨(n, el, m), hmem, rfl⟩)
      (wigner_key3_uniq L N _ n el m hel hm hn1 hn2)).trans ?_
    rw [htoNat]
  unfold flmn_3d_to_1d
  rw [← htoNat]
  refine (writeAll_eq_of_mem' _ _ _
    (flmn_1d_to_3d y L N
      (el, (((L : ℤ) - 1) + m).toNat, (((N : ℤ) - 1) + n).toNat))
    (List.mem_map.mpr ⟨(n, el, m), hmem, rfl⟩)
    (wigner_ind_uniq L N _ n el m hel hm hn1 hn2)).trans ?_
  rw [hinner, htoNat]

/-- Direction 1 of C4: packing then unpacking restores every in-range entry
of a 3-D coefficient array whose out-of-triangle entries vanish. -/
theorem flmn_3d_roundtrip (L N : ℕ) (x : ℕ × ℕ × ℕ → ℂ)
    (hx : ∀ el j k, el < L → j < 2 * L - 1 → k < 2 * N - 1 →
      (el : ℤ) < |(j : ℤ) - ((L : ℤ) - 1)| → x (el, j, k) = 0)
    (el j k : ℕ) (hel : el < L) (hj : j < 2 * L - 1) (hk : k < 2 * N - 1) :
    flmn_1d_to_3d (flmn_3d_to_1d x L N) L N (el, j, k) = x (el, j, k) := by
  by_cases htri : (el : ℤ) < |(j : ℤ) - ((L : ℤ) - 1)|
  · rw [hx el j k hel hj hk htri]
    have htri2 : (el : ℤ) < (j : ℤ) - ((L : ℤ) - 1) ∨
        (el : ℤ) < -((j : ℤ) - ((L : ℤ) - 1)) := lt_abs.mp htri
    unfold flmn_1d_to_3d
    apply writeAll_not_mem
    rintro ⟨key', v'⟩ hq' hkey
    obtain ⟨q', hq'mem, hq'eq⟩ := List.mem_map.mp hq'
    obtain ⟨n', el', m'⟩ := q'
    obtain ⟨hb1, hb2, hb3, hb4⟩ := (mem_wignerIdx L N n' el' m').mp hq'mem
    have hm1' : -((el' : ℤ)) ≤ m' ∧ m' ≤ el' := by omega
    clear hb4
    dsimp only at hq'eq
    rw [Prod.mk.injEq] at hq'eq
    obtain ⟨hk1, hv1⟩ := hq'eq
    rw [← hk1] at hkey
    dsimp only at hkey
    rw [Prod.mk.injEq, Prod.mk.injEq] at hkey
    obtain ⟨he1, he2, he3⟩ := hkey
    subst he1
    omega
  · push_neg at htri
    rw [abs_le] at htri
    have hm : ((j : ℤ) - ((L : ℤ) - 1)).natAbs ≤ el := by omega
    have hn1 : -(N : ℤ) + 1 ≤ (k : ℤ) - ((N : ℤ) - 1) := by omega
    have hn2 : (k : ℤ) - ((N : ℤ) - 1) ≤ (N : ℤ) - 1 := by omega
    have hmem : ((k : ℤ) - ((N : ℤ) - 1), el, (j : ℤ) - ((L : ℤ) - 1)) ∈
        wignerIdx L N :=
      (mem_wignerIdx L N _ el _).mpr ⟨hn1, hn2, hel, hm⟩
    have hj' : j = (((L : ℤ) - 1) + ((j : ℤ) - ((L : ℤ) - 1))).toNat := by
      omega
    have hk' : k = (((N : ℤ) - 1) + ((k : ℤ) - ((N : ℤ) - 1))).toNat := by
      omega
    unfold flmn_1d_to_3d
    rw [hj', hk']
    refine (writeAll_eq_of_mem' _ _ _
      (flmn_3d_to_1d x L N
        (elmn2ind el ((j : ℤ) - ((L : ℤ) - 1)) ((k : ℤ) - ((N : ℤ) - 1)) L
          N).toNat)
      (List.mem_map.mpr ⟨((k : ℤ) - ((N : ℤ) - 1), el,
        (j : ℤ) - ((L : ℤ) - 1)), hmem, rfl⟩)
      (wigner_key3_uniq L N _ _ el _ hel hm hn1 hn2)).trans ?_
    unfold flmn_3d_to_1d
    refine (writeAll_eq_of_mem' _ _ _
      (x (el, (((L : ℤ) - 1) + ((j : ℤ) - ((L : ℤ) - 1))).toNat,
        (((N : ℤ) - 1) + ((k : ℤ) - ((N : ℤ) - 1))).toNat))
      (List.mem_map.mpr ⟨((k : ℤ) - ((N : ℤ) - 1), el,
        (j : ℤ) - ((L : ℤ) - 1)), hmem, rfl⟩)
      (wigner_ind_uniq L N _ _ el _ hel hm hn1 hn2)).trans ?_
    rfl

/-- C4: both coefficient packing round trips are exact:
`flmn_1d_to_3d ∘ flmn_3d_to_1d` restores every in-range entry of a 3-D
array supported on `|m| ≤ ℓ`, and `flmn_3d_to_1d ∘ flmn_1d_to_3d` is the
identity on flat vectors of length `(2N-1)·L·L`. -/
theorem C4_packing_roundtrip (L N : ℕ) (x : ℕ × ℕ × ℕ → ℂ)
    (hx : ∀ el j k, el < L → j < 2 * L - 1 → k < 2 * N - 1 →
      (el : ℤ) < |(j : ℤ) - ((L : ℤ) - 1)| → x (el, j, k) = 0)
    (y : ℕ → ℂ) :
    (∀ el j k, el < L → j < 2 * L - 1 → k < 2 * N - 1 →
        flmn_1d_to_3d (flmn_3d_to_1d x L N) L N (el, j, k) = x (el, j, k)) ∧
      (∀ i, i < flmn_shape_1d L N →
        flmn_3d_to_1d (flmn_1d_to_3d y L N) L N i = y i) :=
  ⟨fun el j k hel hj hk => flmn_3d_roundtrip L N x hx el j k hel hj hk,
    fun i hi => flmn_1d_roundtrip L N y i hi⟩

/-- Witness for the C4 theorem at `L = N = 1` on the zero arrays. -/
theorem C4_witness :
    flmn_1d_to_3d (flmn_3d_to_1d (fun _ => (0 : ℂ)) 1 1) 1 1 (0, 0, 0) =
        (fun _ => (0 : ℂ)) ((0 : ℕ), (0 : ℕ), (0 : ℕ)) ∧
      flmn_3d_to_1d (flmn_1d_to_3d (fun _ => (0 : ℂ)) 1 1) 1 1 0 =
        (fun _ => (0 : ℂ)) (0 : ℕ) :=
  ⟨(C4_packing_roundtrip 1 1 (fun _ => 0) (fun _ _ _ _ _ _ _ => rfl)
      (fun _ => 0)).1 0 0 0 (by norm_num) (by norm_num) (by norm_num),
    (C4_packing_roundtrip 1 1 (fun _ => 0) (fun _ _ _ _ _ _ _ => rfl)
      (fun _ => 0)).2 0 (by norm_num [flmn_shape_1d])⟩

/-! ## Claim C5: periodic extension leaves the original rows unchanged -/

theorem lc_mw : lowercase "mw" = "mw" := rfl

theorem lc_mwss : lowercase "mwss" = "mwss" := rfl

/-- Rows below the reflection block pass through `periodic_extension`
unchanged: the reflection writes only rows `≥ L + m_offset`, and on the
untouched rows the φ-axis `ifft ∘ ifftshift ∘ fftshift ∘ fft` chain is the
identity in exact arithmetic. -/
theorem pe_restrict (f : ℕ → ℕ → ℂ) (L : ℕ) (spin : ℤ)
    (ntheta nphi m_offset : ℕ) (hnphi : nphi ≠ 0) (r c : ℕ)
    (hr : r < L + m_offset) (hrn : r < ntheta) (hc : c < nphi) :
    ifftBackward nphi
        (ifftshift nphi (pe_reflect f L spin ntheta nphi m_offset r)) c =
      f r c := by
  have hF2 : pe_reflect f L spin ntheta nphi m_offset r =
      pe_fft f ntheta nphi r := by
    funext c'
    simp only [pe_reflect]
    rw [if_neg]
    intro hcontra
    omega
  rw [hF2]
  have h1 : ∀ j, j < nphi →
      ifftshift nphi (pe_fft f ntheta nphi r) j =
        fftN nphi (pe_fext0 f ntheta nphi r) j := by
    intro j hj
    simp only [pe_fft]
    exact ifftshift_fftshift nphi _ j hj
  rw [ifftBackward_congr nphi _ _ h1 c, ifftBackward_fftN nphi hnphi _ c hc]
  simp [pe_fext0, hrn, hc]

theorem pe_value_mw (L : ℕ) (spin : ℤ) (f : ℕ → ℕ → ℂ) (r c : ℕ)
    (hr : r < L) (hc : c < 2 * L - 1) :
    periodic_extension f L spin "mw" r c = f r c := by
  have hnth : rsNtheta L "mw" = L := rfl
  have hnph : rsNphi L "mw" = 2 * L - 1 := rfl
  have hmo : (if ("mw" : String) = "mwss" then (1 : ℕ) else 0) = 0 := rfl
  simp only [periodic_extension, hnth, hnph, hmo]
  exact pe_restrict f L spin L (2 * L - 1) 0 (by omega) r c (by omega) hr hc

theorem pe_value_mwss (L : ℕ) (spin : ℤ) (f : ℕ → ℕ → ℂ) (r c : ℕ)
    (hr : r < L + 1) (hc : c < 2 * L) :
    periodic_extension f L spin "mwss" r c = f r c := by
  have hnth : rsNtheta L "mwss" = L + 1 := rfl
  have hnph : rsNphi L "mwss" = 2 * L := rfl
  have hmo : (if ("mwss" : String) = "mwss" then (1 : ℕ) else 0) = 1 := rfl
  simp only [periodic_extension, hnth, hnph, hmo]
  exact pe_restrict f L spin (L + 1) (2 * L) 1 (by omega) r c (by omega) hr hc

/-- C5: for every integer spin and both equiangular schemes, `unextend`
after `periodic_extension` recovers the input field exactly (in exact
arithmetic): the θ-extension writes only the new rows, and the φ-axis FFT
round trip on the original rows is lossless. -/
theorem C5_unextend_periodic_extension (L : ℕ) (hL : 1 ≤ L) (spin : ℤ)
    (sampling : String) (hs : sampling = "mw" ∨ sampling = "mwss")
    (f : ℕ → ℕ → ℂ) :
    ∃ g, unextend (periodic_extension f L spin sampling) L sampling =
        Except.ok g ∧
      ∀ r c, r < rsNtheta L sampling → c < rsNphi L sampling → g r c = f r c := by
  rcases hs with h | h <;> subst h
  · refine ⟨_, by rfl, ?_⟩
    intro r c hr hc
    have hr' : r < L := by
      have : rsNtheta L "mw" = L := rfl
      omega
    have hc' : c < 2 * L - 1 := by
      have : rsNphi L "mw" = 2 * L - 1 := rfl
      omega
    rw [if_pos hr']
    exact pe_value_mw L spin f r c hr' hc'
  · refine ⟨_, by rfl, ?_⟩
    intro r c hr hc
    have hr' : r < L + 1 := by
      have : rsNtheta L "mwss" = L + 1 := rfl
      omega
    have hc' : c < 2 * L := by
      have : rsNphi L "mwss" = 2 * L := rfl
      omega
    rw [if_pos hr']
    exact pe_value_mwss L spin f r c hr' hc'

/-- Witness for the C5 theorem at `L = 1`, spin `0`, scheme `mw`. -/
theorem C5_witness :
    ∃ g, unextend (periodic_extension (fun _ _ => (3 : ℂ)) 1 0 "mw") 1 "mw" =
        Except.ok g ∧
      ∀ r c, r < rsNtheta 1 "mw" → c < rsNphi 1 "mw" →
        g r c = (fun _ _ => (3 : ℂ)) r c :=
  C5_unextend_periodic_extension 1 (le_refl 1) 0 "mw" (Or.inl rfl)
    (fun _ _ => (3 : ℂ))

/-! ## Claim C10: spectral folding writes through its argument -/

/-- C10: `spectral_folding` is not pure in its first argument.  In the
state-passing model of the numpy view semantics: (i) the returned slice is
literally a window into the post-call base array; (ii) on the window the
returned values are the folded values; (iii) entries outside the window
are untouched while window entries receive the aliased `+=`
contributions — and at `L = 1`, `nphi = 1` the base array provably changes;
(iv) `healpix_ifft` folds each ring row with `nphi < 2 L` through the view
in place, mutating the caller's `ftm` (concretely at `L = 3`,
`nside = 1`). -/
theorem C10_folding_mutates_in_place :
    (∀ (fm : ℕ → ℂ) (nphi L : ℕ),
        (spectral_folding_st fm nphi L).2 =
          fun k => (spectral_folding_st fm nphi L).1 (L - nphi / 2 + k)) ∧
      (∀ (fm : ℕ → ℂ) (nphi L k : ℕ), k < nphi →
        (spectral_folding_st fm nphi L).2 k = spectral_folding fm nphi L k) ∧
      (∀ (fm : ℕ → ℂ) (nphi L j : ℕ),
        (j < L - nphi / 2 ∨ L - nphi / 2 + nphi ≤ j) →
        (spectral_folding_st fm nphi L).1 j = fm j) ∧
      ((spectral_folding_st (fun j => if j = 0 then (1 : ℂ) else 0) 1 1).1 1 ≠
        (fun j => if j = 0 then (1 : ℂ) else 0) 1) ∧
      (∀ (ftm : ℕ → ℕ → ℂ) (L nside : ℕ) (reality : Bool) (t : ℕ),
        t < hp_ntheta nside → nphi_ring t nside ≠ 2 * L →
        (healpix_ifft_st ftm L nside reality).1 t =
          spectral_folding_base (ftm t) (nphi_ring t nside) L) ∧
      ((healpix_ifft_st (fun _ j => if j = 0 then (1 : ℂ) else 0) 3 1 false).1
          0 4 ≠ (fun (_ : ℕ) (j : ℕ) => if j = 0 then (1 : ℂ) else 0) 0 4) := by
  refine ⟨fun fm nphi L => rfl, ?_, ?_, ?_, ?_, ?_⟩
  · intro fm nphi L k hk
    simp only [spectral_folding_st, spectral_folding, spectral_folding_base]
    rw [if_pos (by omega)]
    simp [Nat.add_sub_cancel_left]
  · intro fm nphi L j hj
    simp only [spectral_folding_st, spectral_folding_base]
    rw [if_neg (by omega)]
  · have hval :
        (spectral_folding_st (fun j => if j = 0 then (1 : ℂ) else 0) 1 1).1 1 =
          1 := by
      norm_num [spectral_folding_st, spectral_folding_base]
    rw [hval]
    norm_num
  · intro ftm L nside reality t ht hne
    simp [healpix_ifft_st, ht, hne]
  · have hval :
        (healpix_ifft_st (fun _ j => if j = 0 then (1 : ℂ) else 0) 3 1
            false).1 0 4 = 1 := by
      norm_num [healpix_ifft_st, hp_ntheta, nphi_ring, spectral_folding_base]
      decide
    rw [hval]
    norm_num

/-- Witness for the C10 theorem: the row-mutation clause applied to the
first ring of an `nside = 1`, `L = 3` map. -/
theorem C10_witness :
    (healpix_ifft_st (fun _ _ => (0 : ℂ)) 3 1 false).1 0 =
      spectral_folding_base ((fun _ _ => (0 : ℂ)) 0) (nphi_ring 0 1) 3 :=
  C10_folding_mutates_in_place.2.2.2.2.1 (fun _ _ => (0 : ℂ)) 3 1 false 0
    (by norm_num [hp_ntheta]) (by norm_num [nphi_ring])

/-! ## Claim C1: Wigner transform round trip -/

theorem wigner_scale_cancel (x : ℝ) (hx : 0 ≤ x) :
    2 * Real.pi * (Real.sqrt ((2 * x + 1) / (16 * Real.pi ^ 3)) *
      Real.sqrt (4 * Real.pi / (2 * x + 1))) = 1 := by
  have hpi := Real.pi_pos
  have h1 : 0 ≤ (2 * x + 1) / (16 * Real.pi ^ 3) := by positivity
  rw [← Real.sqrt_mul h1]
  have h2 : (2 * x + 1) / (16 * Real.pi ^ 3) * (4 * Real.pi / (2 * x + 1)) =
      (1 / (2 * Real.pi)) ^ 2 := by
    field_simp
    ring
  rw [h2, Real.sqrt_sq (by positivity)]
  field_simp

/-- The `sqrt((2ℓ+1)/16π³)` inverse scale, the `2π/(2N-1)` forward scale,
the FFT round-trip factor `2N-1` and the `sqrt(4π/(2ℓ+1))` forward scale
cancel exactly. -/
theorem wigner_scalar_total (N el : ℕ) (hN : 1 ≤ N) :
    (((2 * N - 1 : ℕ) : ℂ)) * ((2 * Real.pi / (2 * (N : ℝ) - 1) : ℝ) : ℂ) *
      ((Real.sqrt ((2 * (el : ℝ) + 1) / (16 * Real.pi ^ 3)) : ℝ) : ℂ) *
      ((Real.sqrt (4 * Real.pi / (2 * (el : ℝ) + 1)) : ℝ) : ℂ) = 1 := by
  have hc : ((2 * N - 1 : ℕ) : ℝ) = 2 * (N : ℝ) - 1 := by
    rw [Nat.cast_sub (by omega : 1 ≤ 2 * N)]
    push_cast
    ring
  have hr : ((2 * N - 1 : ℕ) : ℝ) * (2 * Real.pi / (2 * (N : ℝ) - 1)) *
      Real.sqrt ((2 * (el : ℝ) + 1) / (16 * Real.pi ^ 3)) *
      Real.sqrt (4 * Real.pi / (2 * (el : ℝ) + 1)) = 1 := by
    have hNne : (2 * (N : ℝ) - 1) ≠ 0 := by
      have h1 : (1 : ℝ) ≤ (N : ℝ) := by exact_mod_cast hN
      nlinarith
    rw [hc]
    have h1 : (2 * (N : ℝ) - 1) * (2 * Real.pi / (2 * (N : ℝ) - 1)) =
        2 * Real.pi := by field_simp
    calc (2 * (N : ℝ) - 1) * (2 * Real.pi / (2 * (N : ℝ) - 1)) *
          Real.sqrt ((2 * (el : ℝ) + 1) / (16 * Real.pi ^ 3)) *
          Real.sqrt (4 * Real.pi / (2 * (el : ℝ) + 1))
        = (2 * (N : ℝ) - 1) * (2 * Real.pi / (2 * (N : ℝ) - 1)) *
          (Real.sqrt ((2 * (el : ℝ) + 1) / (16 * Real.pi ^ 3)) *
            Real.sqrt (4 * Real.pi / (2 * (el : ℝ) + 1))) := by ring
      _ = 2 * Real.pi *
          (Real.sqrt ((2 * (el : ℝ) + 1) / (16 * Real.pi ^ 3)) *
            Real.sqrt (4 * Real.pi / (2 * (el : ℝ) + 1))) := by rw [h1]
      _ = 1 := wigner_scale_cancel (el : ℝ) (Nat.cast_nonneg el)
  rw [show (((2 * N - 1 : ℕ) : ℂ)) = ((((2 * N - 1 : ℕ) : ℝ) : ℂ)) from by
      norm_cast,
    ← Complex.ofReal_mul, ← Complex.ofReal_mul, ← Complex.ofReal_mul, hr,
    Complex.ofReal_one]

/-- The γ-axis FFT chain of forward-after-inverse multiplies each slot by
`2N-1`: `fftshift ∘ fft ∘ ifft(forward-norm) ∘ ifftshift = (2N-1)·id`. -/
theorem gamma_fft_chain (N : ℕ) (hN : 1 ≤ N) (X : ℕ → ℂ) (k : ℕ)
    (hk : k < 2 * N - 1) :
    fftshift (2 * N - 1)
        (fftN (2 * N - 1) (ifftForward (2 * N - 1) (ifftshift (2 * N - 1) X)))
        k = ((2 * N - 1 : ℕ) : ℂ) * X k := by
  have h2N : (2 * N - 1 : ℕ) ≠ 0 := by omega
  have hshift := fftshift_ifftshift (2 * N - 1) X k hk
  unfold fftshift at hshift ⊢
  rw [fftN_ifftForward _ h2N _ _
    (Nat.mod_lt _ (Nat.pos_of_ne_zero h2N)), hshift]

/-- C1: the claimed round-trip is unobservable in the program as written —
both of the claim's cited entry points, `inverse` and `forward` of
`s2fft/wigner/transform.py`, raise `TypeError` on every input because they
pass four positional arguments to the three-parameter
`samples.f_shape(L, N, sampling)` (lines 55 and 129), so
`forward(inverse(flmn, …), …)` never returns (first two conjuncts); the
coefficient computation their bodies would perform does satisfy the exact
round-trip for every band-limited array, every `L`, `N ≥ 1`, and every
spin spherical collaborator meeting the spec's contract (third
conjunct). -/
theorem C1_roundtrip_unreachable :
    (∀ (T : SphericalPair) (flmn : ℕ → ℕ → ℕ → ℂ) (L N : ℕ)
        (sampling : String) (nside : Option ℕ) (reality : Bool),
      wigner_inverse T flmn L N sampling nside reality
        = Except.error f_shape_arity_msg) ∧
    (∀ (T : SphericalPair) (f : ℕ → ℕ → ℕ → ℂ) (L N : ℕ)
        (sampling : String) (nside : Option ℕ) (reality : Bool),
      wigner_forward_entry T f L N sampling nside reality
        = Except.error f_shape_arity_msg) ∧
    (∀ (T : SphericalPair) (L N : ℕ), 1 ≤ N →
      ∀ flmn : ℕ → ℕ → ℕ → ℂ,
      (∀ s g, bandlimited L g → ∀ el j, el < L → j < 2 * L - 1 →
        T.fwd s (T.inv s g) el j = g el j) →
      (∀ (s : ℤ) (c : ℂ) (h : ℕ → ℕ → ℂ) (el j : ℕ),
        T.fwd s (fun b a => c * h b a) el j = c * T.fwd s h el j) →
      (∀ k, k < 2 * N - 1 → bandlimited L fun el j => flmn el j k) →
      ∀ el j k, el < L → j < 2 * L - 1 → k < 2 * N - 1 →
        wigner_forward T (wigner_inverse_core T flmn L N false) L N false
            el j k
          = flmn el j k) := by
  refine ⟨fun T flmn L N sampling nside reality => rfl,
    fun T f L N sampling nside reality => rfl, ?_⟩
  intro T L N hN flmn hrt hlin hband el j k hel hj hk
  have hfft : ∀ b a,
      fftshift (2 * N - 1)
          (fftN (2 * N - 1) (wigner_inverse_core T flmn L N false b a)) k =
        ((2 * N - 1 : ℕ) : ℂ) * wigner_inv_fban T flmn N b a k := by
    intro b a
    have hinv : wigner_inverse_core T flmn L N false b a =
        ifftForward (2 * N - 1)
          (ifftshift (2 * N - 1) (wigner_inv_fban T flmn N b a)) := rfl
    rw [hinv]
    exact gamma_fft_chain N hN _ k hk
  have hfun :
      (fun b a =>
          wigner_fwd_fban (wigner_inverse_core T flmn L N false) N false b a k)
        = fun b a =>
          (((2 * N - 1 : ℕ) : ℂ) * ((2 * Real.pi / (2 * (N : ℝ) - 1) : ℝ) : ℂ) *
            (-1 : ℂ) ^ ((k : ℤ) - ((N : ℤ) - 1))) *
            T.inv (-((k : ℤ) - ((N : ℤ) - 1)))
              (fun el' j' => wigner_inv_scaled flmn el' j' k) b a := by
    funext b a
    have h1 : wigner_fwd_fban (wigner_inverse_core T flmn L N false) N false
        b a k =
        fftshift (2 * N - 1)
            (fftN (2 * N - 1) (wigner_inverse_core T flmn L N false b a)) k *
          ((2 * Real.pi / (2 * (N : ℝ) - 1) : ℝ) : ℂ) := rfl
    rw [h1, hfft b a]
    simp only [wigner_inv_fban]
    ring
  have hbl : bandlimited L fun el' j' => wigner_inv_scaled flmn el' j' k := by
    intro el' j' h1 h2 h3
    simp only [wigner_inv_scaled]
    have h0 : flmn el' j' k = 0 := hband k hk el' j' h1 h2 h3
    rw [h0, zero_mul]
  have hif1 : wigner_forward T (wigner_inverse_core T flmn L N false) L N false
      el j k =
      wigner_fwd_posval T (wigner_inverse_core T flmn L N false) N false el j k *
        ((Real.sqrt (4 * Real.pi / (2 * (el : ℝ) + 1)) : ℝ) : ℂ) := rfl
  have hif2 : wigner_fwd_posval T (wigner_inverse_core T flmn L N false) N false
      el j k =
      (-1 : ℂ) ^ ((k : ℤ) - ((N : ℤ) - 1)) *
        T.fwd (-((k : ℤ) - ((N : ℤ) - 1)))
          (fun b a =>
            wigner_fwd_fban (wigner_inverse_core T flmn L N false) N false b a k)
          el j := rfl
  rw [hif1, hif2, hfun, hlin,
    hrt _ _ hbl el j hel hj]
  have hgk : wigner_inv_scaled flmn el j k =
      flmn el j k *
        ((Real.sqrt ((2 * (el : ℝ) + 1) / (16 * Real.pi ^ 3)) : ℝ) : ℂ) := rfl
  rw [hgk]
  have hsq : (-1 : ℂ) ^ ((k : ℤ) - ((N : ℤ) - 1)) *
      (-1 : ℂ) ^ ((k : ℤ) - ((N : ℤ) - 1)) = 1 := by
    rw [← zpow_add₀ (by norm_num : (-1 : ℂ) ≠ 0)]
    have h2 : (k : ℤ) - ((N : ℤ) - 1) + ((k : ℤ) - ((N : ℤ) - 1)) =
        2 * ((k : ℤ) - ((N : ℤ) - 1)) := by ring
    rw [h2, zpow_mul]
    norm_num
  have hscal := wigner_scalar_total N el hN
  have hfin : (-1 : ℂ) ^ ((k : ℤ) - ((N : ℤ) - 1)) *
      ((((2 * N - 1 : ℕ) : ℂ) * ((2 * Real.pi / (2 * (N : ℝ) - 1) : ℝ) : ℂ) *
          (-1 : ℂ) ^ ((k : ℤ) - ((N : ℤ) - 1))) *
        (flmn el j k *
          ((Real.sqrt ((2 * (el : ℝ) + 1) / (16 * Real.pi ^ 3)) : ℝ) : ℂ))) *
      ((Real.sqrt (4 * Real.pi / (2 * (el : ℝ) + 1)) : ℝ) : ℂ) =
      ((-1 : ℂ) ^ ((k : ℤ) - ((N : ℤ) - 1)) *
          (-1 : ℂ) ^ ((k : ℤ) - ((N : ℤ) - 1))) *
        ((((2 * N - 1 : ℕ) : ℂ) *
            ((2 * Real.pi / (2 * (N : ℝ) - 1) : ℝ) : ℂ) *
            ((Real.sqrt ((2 * (el : ℝ) + 1) / (16 * Real.pi ^ 3)) : ℝ) : ℂ) *
            ((Real.sqrt (4 * Real.pi / (2 * (el : ℝ) + 1)) : ℝ) : ℂ)) *
          flmn el j k) := by ring
  rw [hfin, hsq, hscal]
  ring

/-- Witness for the C1 theorem: the entry point aborts at `L = N = 1` on
the `mw` scheme, and the body round-trip holds there for the identity
collaborator pair on the one-point grid and the constant-one coefficient
array. -/
theorem C1_witness :
    wigner_inverse idPair (fun _ _ _ => (1 : ℂ)) 1 1 "mw" none false
        = Except.error f_shape_arity_msg ∧
      wigner_forward idPair
        (wigner_inverse_core idPair (fun _ _ _ => (1 : ℂ)) 1 1 false) 1 1 false
        0 0 0 = (fun _ _ _ => (1 : ℂ)) 0 0 0 :=
  ⟨C1_roundtrip_unreachable.1 idPair (fun _ _ _ => (1 : ℂ)) 1 1 "mw" none false,
    C1_roundtrip_unreachable.2.2 idPair 1 1 (le_refl 1) (fun _ _ _ => (1 : ℂ))
      (fun s g hg el j hel hj => rfl)
      (fun s c h el j => rfl)
      (fun k hk el j h1 h2 h3 => by
        exfalso
        have hj0 : j = 0 := by omega
        have hel0 : el = 0 := by omega
        subst hj0
        subst hel0
        simp at h3)
      0 0 0 (by norm_num) (by norm_num) (by norm_num)⟩

/-! ## Claim C6: conjugate symmetry of the reality-path Wigner forward -/

theorem neg_one_zpow_natAbs (m : ℤ) :
    ((-1 : ℂ)) ^ m.natAbs = (-1 : ℂ) ^ m := by
  rcases Int.natAbs_eq m with h | h
  · conv_rhs => rw [h]
    rw [zpow_natCast]
  · conv_rhs => rw [h]
    rw [zpow_neg, zpow_natCast]
    rcases neg_one_pow_eq_or ℂ m.natAbs with h1 | h1 <;> rw [h1] <;> norm_num

/-- C6: with `reality = True`, for every input, every spin spherical
transform collaborator, every order `1 ≤ n ≤ N-1` and `|m| ≤ ℓ < L`, the
Wigner forward output satisfies
`flmn[ℓ, -m, -n] = (-1)^(m+n) · conj (flmn[ℓ, m, n])` — the negative-`n`
slots are filled by conjugate, flip over `m` and sign from the positive-`n`
slots, and the subsequent real `sqrt(4π/(2ℓ+1))` rescaling preserves the
symmetry. -/
theorem C6_reality_conjugate_symmetry (T : SphericalPair)
    (f : ℕ → ℕ → ℕ → ℂ) (L N : ℕ) (el : ℕ) (m n : ℤ) (hel : el < L)
    (hm : m.natAbs ≤ el) (hn1 : 1 ≤ n) (hn2 : n ≤ (N : ℤ) - 1) :
    wigner_forward T f L N true el (((L : ℤ) - 1) - m).toNat
        (((N : ℤ) - 1) - n).toNat =
      (-1 : ℂ) ^ (m + n) *
        (starRingEnd ℂ)
          (wigner_forward T f L N true el (((L : ℤ) - 1) + m).toNat
            (((N : ℤ) - 1) + n).toNat) := by
  have hjm2 : 2 * L - 2 - (((L : ℤ) - 1) - m).toNat =
      (((L : ℤ) - 1) + m).toNat := by omega
  have hk2 : 2 * (N - 1) - (((N : ℤ) - 1) - n).toNat =
      (((N : ℤ) - 1) + n).toNat := by omega
  have hk3 : N - 1 - (((N : ℤ) - 1) - n).toNat = n.toNat := by omega
  have hknot : ¬ (N - 1 ≤ (((N : ℤ) - 1) - n).toNat) := by omega
  have hkp : N - 1 ≤ (((N : ℤ) - 1) + n).toNat := by omega
  simp only [wigner_forward, if_true]
  rw [if_neg hknot, if_pos hkp, hjm2, hk2, hk3]
  rw [map_mul, map_mul, map_mul]
  have hsgn : wigner_sgn L (((L : ℤ) - 1) + m).toNat =
      (-1 : ℂ) ^ m.natAbs := by
    unfold wigner_sgn
    congr 1
    omega
  rw [hsgn]
  have hc1 : (starRingEnd ℂ) ((-1 : ℂ) ^ m.natAbs) = (-1 : ℂ) ^ m.natAbs := by
    rw [map_pow, map_neg, map_one]
  have hc2 : (starRingEnd ℂ) ((-1 : ℂ) ^ n.toNat) = (-1 : ℂ) ^ n.toNat := by
    rw [map_pow, map_neg, map_one]
  have hc3 : (starRingEnd ℂ)
      ((Real.sqrt (4 * Real.pi / (2 * (el : ℝ) + 1)) : ℝ) : ℂ) =
        ((Real.sqrt (4 * Real.pi / (2 * (el : ℝ) + 1)) : ℝ) : ℂ) :=
    Complex.conj_ofReal _
  rw [hc1, hc2, hc3]
  have hA : ((-1 : ℂ)) ^ m.natAbs = (-1 : ℂ) ^ m := neg_one_zpow_natAbs m
  have hB : ((-1 : ℂ)) ^ n.toNat = (-1 : ℂ) ^ n := by
    rw [← zpow_natCast]
    congr 1
    omega
  rw [hA, hB, zpow_add₀ (by norm_num : (-1 : ℂ) ≠ 0) m n]
  ring

/-- Witness for the C6 theorem at `L = 1`, `N = 2`, `ℓ = m' = 0`, `n = 1`,
on the zero field with the trivial collaborator pair. -/
theorem C6_witness :
    wigner_forward idPair (fun _ _ _ => 0) 1 2 true 0 (((1 : ℤ) - 1) - 0).toNat
        (((2 : ℤ) - 1) - 1).toNat =
      (-1 : ℂ) ^ ((0 : ℤ) + 1) *
        (starRingEnd ℂ)
          (wigner_forward idPair (fun _ _ _ => 0) 1 2 true 0
            (((1 : ℤ) - 1) + 0).toNat (((2 : ℤ) - 1) + 1).toNat) :=
  C6_reality_conjugate_symmetry idPair (fun _ _ _ => 0) 1 2 0 0 1
    (by norm_num) (by norm_num) (by norm_num) (by norm_num)

/-! ## Claim C7: storage order of the rotation-group axes -/

/-- C7 (amended): the pixel-space shape of the numpy Wigner transform of
`wigner/transform.py` orders the axes as `(β, α, γ)`, not `(γ, β, α)`:
`f_shape` returns `(_nbeta, _nalpha, _ngamma)` in that order for every
supported scheme, and the transform's γ-axis FFT runs over the *last*
axis.  (The `jax_transforms` module uses the `(γ, β, α)` order the claim
describes; the claim is false of the `wigner/transform.py` entry points it
also names.) -/
theorem C7_f_shape_order (L N : ℕ) :
    f_shape L N "mw" = Except.ok (L, 2 * L - 1, ngamma N) ∧
      f_shape L N "mwss" = Except.ok (L + 1, 2 * L, ngamma N) ∧
      f_shape L N "dh" = Except.ok (2 * L, 2 * L - 1, ngamma N) :=
  ⟨rfl, rfl, rfl⟩

/-- C7 counterexample: at `L = 2`, `N = 1`, scheme `mw`, the claimed
`(n_gamma, n_beta, n_alpha) = (1, 2, 3)` ordering disagrees with the shape
`(2, 3, 1)` the code returns. -/
theorem C7_counterexample :
    f_shape 2 1 "mw" ≠ Except.ok (ngamma 1, 2, 3) := by
  intro h
  have hval : f_shape 2 1 "mw" = Except.ok (2, 3, 1) := rfl
  rw [hval] at h
  have := Except.ok.inj h
  simp [ngamma] at this

/-! ## Claim C8: unsupported sampling strings -/

/-- C8 (supporting theorem): the shape functions of
`s2fft/wigner/samples.py` do reject every unsupported sampling string with
a `ValueError` rather than falling back to a default: `f_shape` fails for
any string other than its three exact-match schemes, and `_nbeta` and
`_nalpha` fail for any string whose lowercasing is not a supported scheme.
(The transform entry points themselves fail differently — see the recorded
divergence.) -/
theorem C8_unsupported_sampling_errors (L N : ℕ) (s : String)
    (h1 : s ≠ "mw") (h2 : s ≠ "mwss") (h3 : s ≠ "dh") :
    (∃ e, f_shape L N s = Except.error e) ∧
      (lowercase s ≠ "mw" → lowercase s ≠ "mwss" → lowercase s ≠ "dh" →
        (∃ e, nbeta L s = Except.error e) ∧
          (∃ e, nalpha L s = Except.error e)) := by
  refine ⟨⟨"Sampling scheme not supported", ?_⟩, ?_⟩
  · simp [f_shape, h1, h2, h3]
  · intro g1 g2 g3
    exact ⟨⟨"Sampling scheme not supported", by simp [nbeta, g1, g2, g3]⟩,
      ⟨"Sampling scheme not supported", by simp [nalpha, g1, g2, g3]⟩⟩

/-- Witness for the C8 theorem at the unsupported string `"foo"`. -/
theorem C8_witness :
    (∃ e, f_shape 1 1 "foo" = Except.error e) ∧
      (lowercase "foo" ≠ "mw" → lowercase "foo" ≠ "mwss" →
        lowercase "foo" ≠ "dh" →
        (∃ e, nbeta 1 "foo" = Except.error e) ∧
          (∃ e, nalpha 1 "foo" = Except.error e)) :=
  C8_unsupported_sampling_errors 1 1 "foo" (by decide) (by decide) (by decide)

/-! ## Claim C9: reality request with nonzero spin -/

/-- C9: for every nonzero spin, `spin_spherical_kernel` with
`reality = True` sets the warning flag and otherwise returns exactly the
result of the `reality = False` call — in particular the kernel keeps the
full m-dimension `2 L - 1` — whatever the collaborating θ grids, recursion
slices, weights and phase shifts compute. -/
theorem C9_reality_downgrade (C : ConstructCollab) (L : ℕ) (spin : ℤ)
    (sampling : String) (nside : Option ℕ) (forward : Bool)
    (hspin : spin ≠ 0) :
    spin_spherical_kernel C L spin true sampling nside forward =
        { spin_spherical_kernel C L spin false sampling nside forward with
            warned := true } ∧
      (spin_spherical_kernel C L spin true sampling nside forward).mdim =
        2 * L - 1 := by
  constructor
  · simp [spin_spherical_kernel, hspin]
  · simp [spin_spherical_kernel, hspin]

/-- Witness for the C9 theorem at `spin = 1`. -/
theorem C9_witness :
    spin_spherical_kernel trivCollab 1 1 true "mw" none false =
        { spin_spherical_kernel trivCollab 1 1 false "mw" none false with
            warned := true } ∧
      (spin_spherical_kernel trivCollab 1 1 true "mw" none false).mdim =
        2 * 1 - 1 :=
  C9_reality_downgrade trivCollab 1 1 "mw" none false (by decide)

/-! ## Claim C3: consistency of the real-FFT optimisation path

Forward direction: the reality branch of `healpix_fft` is dead code (its
`fm_chunk` is unconditionally overwritten), so the two paths agree for
*every* input, real or not, by definitional equality.  Inverse direction:
on a full-length ring (`nphi = 2 L`) the reality branch rebuilds the signal
from the non-negative-frequency half `fm_chunk[nphi//2:]` of the shifted
spectrum via `irfft`; that half has length `L`, so `irfft(·, nphi)`
implicitly zero-pads the Nyquist bin, i.e. it drops whatever the row stored
in bin `0` (shifted frequency `-L`).  Conjugate symmetry of a row of even
length forces bin `0` to be real, not zero, so the two paths agree exactly
iff the `-L` bin vanishes — the amended hypothesis below.  The
counterexample row `e₀` is conjugate-symmetric yet gives `0 ≠ 1` at
pixel `0`. -/

/-- Congruence of the root-of-unity sampler modulo the period: exponents
that differ by a multiple of `n` give the same value. -/
theorem npexp_sub_period (n : ℕ) (hn : n ≠ 0) (s t : ℤ)
    (h : (n : ℤ) ∣ s - t) : npexp n s = npexp n t := by
  obtain ⟨c, hc⟩ := h
  have hs : s = t + (n : ℤ) * c := by linarith
  rw [hs, npexp_add, npexp_n_dvd n hn _ ⟨c, rfl⟩, mul_one]

/-- Per-ring core of the C3 inverse direction: on a length-`2 L` ring
whose shifted spectral row `fm` is conjugate-symmetric about the centre
(`fm[(2L - j) mod 2L] = conj fm[j]`) and has a vanishing `-L` bin
(`fm 0 = 0`), the half-spectrum `irfft` of `fm[L:]` agrees with the full
complex `ifft` of the unshifted row at every output sample. -/
theorem hp_ring_reality_eq (L : ℕ) (hL : 1 ≤ L) (fm : ℕ → ℂ)
    (hsym : ∀ j, j < 2 * L →
      fm ((2 * L - j) % (2 * L)) = (starRingEnd ℂ) (fm j))
    (h0 : fm 0 = 0) (q : ℕ) :
    irfftForward (2 * L)
        (fun k => if k < 2 * L - (2 * L) / 2 then fm ((2 * L) / 2 + k) else 0) q
      = ifftForward (2 * L) (ifftshift (2 * L) fm) q := by
  have h2 : (2 * L) / 2 = L := by omega
  have hs2 : 2 * L - L = L := by omega
  have hre : fm L = ((fm L).re : ℂ) := by
    have hj := hsym L (by omega)
    rw [hs2, Nat.mod_eq_of_lt (by omega)] at hj
    exact (Complex.conj_eq_iff_re.mp hj.symm).symm
  have hRHS : ifftForward (2 * L) (ifftshift (2 * L) fm) q
      = fm L + ∑ i ∈ Finset.range (L - 1),
          (fm (L + (i + 1)) * npexp (2 * L) (((i + 1 : ℕ) : ℤ) * q)
            + (starRingEnd ℂ)
                (fm (L + (i + 1)) * npexp (2 * L) (((i + 1 : ℕ) : ℤ) * q))) := by
    have hsum : ifftForward (2 * L) (ifftshift (2 * L) fm) q
        = ∑ k ∈ Finset.range (2 * L),
            fm ((k + L) % (2 * L)) * npexp (2 * L) ((k : ℤ) * q) := by
      simp only [ifftForward, ifftshift, h2]
    rw [hsum, show Finset.range (2 * L) = Finset.Ico 0 (2 * L) from
        congrFun Finset.range_eq_Ico (2 * L),
      ← Finset.sum_Ico_consecutive _ (show 0 ≤ L + 1 by omega)
        (show L + 1 ≤ 2 * L by omega),
      Finset.sum_Ico_succ_top (show 0 ≤ L by omega),
      Finset.sum_eq_sum_Ico_succ_bot (show 0 < L by omega),
      Finset.sum_Ico_eq_sum_range, Finset.sum_Ico_eq_sum_range]
    have hf0 : fm ((0 + L) % (2 * L)) * npexp (2 * L) (((0 : ℕ) : ℤ) * q)
        = fm L := by
      rw [Nat.zero_add, Nat.mod_eq_of_lt (by omega)]
      norm_num [npexp_zero]
    have hfL : fm ((L + L) % (2 * L)) * npexp (2 * L) (((L : ℕ) : ℤ) * q)
        = 0 := by
      have hm : L + L = 2 * L := by ring
      rw [hm, Nat.mod_self, h0, zero_mul]
    have hmid : ∀ i ∈ Finset.range (L - 1),
        fm ((1 + i + L) % (2 * L)) * npexp (2 * L) (((1 + i : ℕ) : ℤ) * q)
          = fm (L + (i + 1)) * npexp (2 * L) (((i + 1 : ℕ) : ℤ) * q) := by
      intro i hi
      have hi' : i < L - 1 := Finset.mem_range.mp hi
      have hmod : (1 + i + L) % (2 * L) = L + (i + 1) := by
        rw [Nat.mod_eq_of_lt (by omega)]; omega
      rw [hmod]
      congr 2
      push_cast
      ring
    have hup : ∀ i ∈ Finset.range (2 * L - (L + 1)),
        fm ((L + 1 + i + L) % (2 * L))
            * npexp (2 * L) (((L + 1 + i : ℕ) : ℤ) * q)
          = (starRingEnd ℂ)
              (fm (L + (L - 1 - i))
                * npexp (2 * L) (((L - 1 - i : ℕ) : ℤ) * q)) := by
      intro i hi
      have hi' : i < 2 * L - (L + 1) := Finset.mem_range.mp hi
      have hmodL : (L + 1 + i + L) % (2 * L) = 1 + i := by
        have he : L + 1 + i + L = 2 * L + (1 + i) := by ring
        rw [he, Nat.add_mod_left, Nat.mod_eq_of_lt (by omega)]
      rw [hmodL, map_mul]
      have hfm : fm (1 + i) = (starRingEnd ℂ) (fm (L + (L - 1 - i))) := by
        have hj := hsym (2 * L - 1 - i) (by omega)
        have ha : 2 * L - (2 * L - 1 - i) = 1 + i := by omega
        have hb : 2 * L - 1 - i = L + (L - 1 - i) := by omega
        rw [ha, Nat.mod_eq_of_lt (by omega), hb] at hj
        exact hj
      rw [hfm]
      congr 1
      rw [npexp_conj]
      apply npexp_sub_period (2 * L) (by omega)
      have hc : ((L - 1 - i : ℕ) : ℤ) = (L : ℤ) - 1 - (i : ℤ) := by omega
      refine ⟨(q : ℤ), ?_⟩
      rw [hc]
      push_cast
      ring
    rw [Finset.sum_congr rfl hmid, Finset.sum_congr rfl hup, hf0, hfL]
    have hrefl : ∑ i ∈ Finset.range (2 * L - (L + 1)),
        (starRingEnd ℂ)
          (fm (L + (L - 1 - i)) * npexp (2 * L) (((L - 1 - i : ℕ) : ℤ) * q))
      = ∑ i ∈ Finset.range (L - 1),
          (starRingEnd ℂ)
            (fm (L + (i + 1)) * npexp (2 * L) (((i + 1 : ℕ) : ℤ) * q)) := by
      have hn : 2 * L - (L + 1) = L - 1 := by omega
      rw [hn,
        ← Finset.sum_range_reflect
          (fun i => (starRingEnd ℂ)
            (fm (L + (i + 1)) * npexp (2 * L) (((i + 1 : ℕ) : ℤ) * q)))
          (L - 1)]
      apply Finset.sum_congr rfl
      intro i hi
      have hi' : i < L - 1 := Finset.mem_range.mp hi
      have hx : L - 1 - 1 - i + 1 = L - 1 - i := by omega
      rw [hx]
    rw [hrefl, Finset.sum_add_distrib]
    ring
  have hLHS : irfftForward (2 * L)
      (fun k => if k < 2 * L - (2 * L) / 2 then fm ((2 * L) / 2 + k) else 0) q
      = ((fm L).re : ℂ) + ∑ i ∈ Finset.range (L - 1),
          2 * (((fm (L + (i + 1))
            * npexp (2 * L) (((i + 1 : ℕ) : ℤ) * q)).re : ℝ) : ℂ) := by
    simp only [irfftForward, h2, hs2]
    rw [if_pos (Nat.mul_mod_right 2 L)]
    have hx1 : (if 0 < L then fm (L + 0) else 0) = fm L := by
      rw [if_pos (by omega), Nat.add_zero]
    have hx2 : (if L < L then fm (L + L) else 0) = 0 := by
      rw [if_neg (lt_irrefl L)]
    rw [hx1, hx2]
    have hrng : (2 * L - 1) / 2 = L - 1 := by omega
    rw [hrng]
    have hterm : ∀ k ∈ Finset.range (L - 1),
        2 * ((((if k + 1 < L then fm (L + (k + 1)) else 0)
            * npexp (2 * L) ((k + 1 : ℕ) * q)).re : ℝ) : ℂ)
          = 2 * (((fm (L + (k + 1))
            * npexp (2 * L) (((k + 1 : ℕ) : ℤ) * q)).re : ℝ) : ℂ) := by
      intro k hk
      have hk' : k < L - 1 := Finset.mem_range.mp hk
      rw [if_pos (by omega)]
    rw [Finset.sum_congr rfl hterm]
    norm_num
  rw [hLHS, hRHS, ← hre]
  congr 1
  apply Finset.sum_congr rfl
  intro i hi
  rw [Complex.add_conj]
  push_cast
  ring

/-- C3: forward direction — `healpix_fft` gives identical output with
`reality = True` and `reality = False` for every input (the real-FFT chunk
is overwritten before use); inverse direction — `healpix_ifft` gives
identical output on both paths provided every full-length ring row is
conjugate-symmetric about its centre *and* stores zero in its
highest-negative-frequency bin `0` (the amendment: the reality `irfft`
path implicitly zero-pads that bin, so symmetry alone is not enough). -/
theorem C3_reality_path_consistency :
    (∀ (f : ℕ → ℂ) (L nside : ℕ), 2 * nside ≤ L →
      ∀ t j, healpix_fft f L nside true t j = healpix_fft f L nside false t j) ∧
    (∀ (ftm : ℕ → ℕ → ℂ) (L nside : ℕ), 2 * nside ≤ L → 1 ≤ L →
      (∀ t, t < hp_ntheta nside → nphi_ring t nside = 2 * L →
        (∀ j, j < 2 * L →
          ftm t ((2 * L - j) % (2 * L)) = (starRingEnd ℂ) (ftm t j))
          ∧ ftm t 0 = 0) →
      ∀ p, healpix_ifft ftm L nside true p = healpix_ifft ftm L nside false p) := by
  constructor
  · intro f L nside _ t j
    rfl
  · intro ftm L nside _ hL hrows p
    unfold healpix_ifft
    apply Finset.sum_congr rfl
    intro t ht
    have ht' : t < hp_ntheta nside := Finset.mem_range.mp ht
    by_cases hw : hpOffset nside t ≤ p ∧ p < hpOffset nside t + nphi_ring t nside
    · rw [if_pos hw, if_pos hw]
      by_cases h2L : nphi_ring t nside = 2 * L
      · simp only [h2L, eq_self_iff_true, if_true, true_and, and_true,
          Bool.false_eq_true, false_and, if_false]
        exact hp_ring_reality_eq L hL (ftm t) (hrows t ht' h2L).1
          (hrows t ht' h2L).2 (p - hpOffset nside t)
      · simp only [h2L, Bool.false_eq_true, false_and, and_false, if_false]
    · rw [if_neg hw, if_neg hw]

/-- Counterexample to the inverse half of C3 as stated: at `L = 2`,
`nside = 1`, the array whose every ring row is `e₀` (a `1` in bin `0`,
zeros elsewhere) is conjugate-symmetric in every row — bin `0` is its own
mirror image, so symmetry only forces it to be real — yet
`healpix_ifft` returns `0` at pixel `0` on the reality path and `1` on
the complex path: the `irfft` half-spectrum rebuild drops the `-L` bin. -/
theorem C3_counterexample :
    (∀ j, j < 2 * 2 →
      (fun (_ : ℕ) (j' : ℕ) => if j' = 0 then (1 : ℂ) else 0) 0
          ((2 * 2 - j) % (2 * 2))
        = (starRingEnd ℂ)
            ((fun (_ : ℕ) (j' : ℕ) => if j' = 0 then (1 : ℂ) else 0) 0 j)) ∧
    healpix_ifft (fun _ j => if j = 0 then (1 : ℂ) else 0) 2 1 true 0 ≠
      healpix_ifft (fun _ j => if j = 0 then (1 : ℂ) else 0) 2 1 false 0 := by
  constructor
  · intro j hj
    interval_cases j <;> norm_num
  · have htrue : healpix_ifft (fun _ j => if j = 0 then (1 : ℂ) else 0) 2 1 true 0
        = 0 := by
      norm_num [healpix_ifft, hp_ntheta, hpOffset, nphi_ring, irfftForward,
        Finset.sum_range_succ, npexp_zero]
    have hfalse : healpix_ifft (fun _ j => if j = 0 then (1 : ℂ) else 0) 2 1 false 0
        = 1 := by
      norm_num [healpix_ifft, hp_ntheta, hpOffset, nphi_ring, ifftForward,
        ifftshift, Finset.sum_range_succ, npexp_zero]
      rw [if_neg (by decide)]
      have hcard :
          (Finset.filter (fun x => (x + 2) % 4 = 0) (Finset.range 4)).card
            = 1 := by decide
      rw [hcard]
      norm_num
    rw [htrue, hfalse]
    exact zero_ne_one

/-- Witness for the C3 theorem: the inverse half applied to the zero
coefficient array at `L = 2`, `nside = 1`, pixel `0` (every hypothesis is
satisfied by zero rows). -/
theorem C3_witness :
    healpix_ifft (fun _ _ => 0) 2 1 true 0 =
      healpix_ifft (fun _ _ => 0) 2 1 false 0 :=
  C3_reality_path_consistency.2 (fun _ _ => 0) 2 1 (by norm_num) (by norm_num)
    (fun _ _ _ => ⟨fun _ _ => by simp, rfl⟩) 0

end
